import Mathlib

set_option maxRecDepth 8000
set_option linter.deprecated false

/-!
Verification of the profile-HMM search engine of this repository
(`src/SPEC/hmmer/host/src/hmmer_baseline.rs`, the full-table decoder, and
`src/SPEC/hmmer/methods/guest/src/main.rs`, the rolling two-row decoder).

Embedding conventions.
The Rust code works with `f64` log-space scores: probabilities are turned
into natural logarithms, products become sums, `f64::NEG_INFINITY` encodes
"no viable path", and all decisions are order comparisons.  The natural
logarithm is a strictly monotone order isomorphism from `[0, ∞)` (with
`0 ↦ -∞`) onto `[-∞, ∞)` that turns multiplication into addition, so the
shallow embedding tracks every score multiplicatively, as an exact
nonnegative rational:

  * a log-space score `s` is represented by the probability-domain value
    `exp s : ℚ`;  `f64::NEG_INFINITY` is represented by `0`, and the
    log-space score `0.0` (log-probability 1) is represented by `1`;
  * `x + y.ln()` in the source becomes `x * y` here, in the same operand
    order; `a.max(b)` and every `>=`/`>` comparison carry over unchanged,
    because `exp` preserves order, ties included;
  * the `f64` literals of the source (`0.8`, `0.074`, ...) are read as the
    exact rationals they denote.

Machine integers (`usize`, `u8`) are embedded as `Nat`.  A `Vec` is a
`List`; in-range index reads are `List.getD` (under the model-length
invariant every read performed by the source is in range, so the default
is never produced).  The one indexing operation that the source can
actually perform out of range — the initial `dp[0][0] = 0.0`
(resp. `prev_scores[0] = 0.0`) store, which panics when the model length
is `0` — is modelled by returning `none` from `viterbi`.
-/

namespace Hmmer

/-- Number of residues in the amino-acid alphabet (`AA_COUNT` in both
source files). -/
def AA_COUNT : Nat := 20

/-- Byte values of the alphabet string `b"ACDEFGHIKLMNPQRSTVWY"`
(`AMINO_ACIDS` in both source files). -/
def AMINO_ACIDS : List Nat :=
  [65, 67, 68, 69, 70, 71, 72, 73, 75, 76, 77, 78, 80, 81, 82, 83, 84, 86, 87, 89]

/-- Background amino-acid frequencies (`aa_freqs` in `HMM::new`, identical
in both source files). -/
def aa_freqs : List ℚ :=
  [0.074, 0.025, 0.054, 0.062, 0.042, 0.073, 0.023, 0.052, 0.024, 0.058, 0.099, 0.045,
   0.039, 0.057, 0.073, 0.073, 0.052, 0.013, 0.034, 0.068]

/-- The `State` enum of `hmmer_baseline.rs` (traceback predecessor tags). -/
inductive State where
  | Match : State
  | Insert : State
  | Delete : State
deriving DecidableEq, Repr

/-- The `HMMTransitions` struct: seven per-position transition-probability
vectors (identical in both source files). -/
structure HMMTransitions where
  match_to_match : List ℚ
  match_to_insert : List ℚ
  match_to_delete : List ℚ
  insert_to_match : List ℚ
  insert_to_insert : List ℚ
  delete_to_match : List ℚ
  delete_to_delete : List ℚ
deriving DecidableEq, Repr

/-- The `HMMEmissions` struct: per-position match and insert emission
tables, each row a 20-entry probability vector (identical in both source
files; the fixed-size Rust row `[f64; 20]` is a 20-element list here). -/
structure HMMEmissions where
  match_emissions : List (List ℚ)
  insert_emissions : List (List ℚ)
deriving DecidableEq, Repr

/-- The `HMM` struct (identical in both source files). -/
structure HMM where
  length : Nat
  transitions : HMMTransitions
  emissions : HMMEmissions
deriving DecidableEq, Repr

/-- The `Sequence` struct: a name and a vector of residue bytes. -/
structure Sequence where
  name : String
  data : List Nat
deriving DecidableEq, Repr

/-- Read a transition vector at an index (`self.transitions.xxx[j]`; in
range whenever `j < ` the vector's length, which the model invariant
guarantees for every read the source performs). -/
def getT (l : List ℚ) (j : Nat) : ℚ := l.getD j 0

/-- Read an emission table at a row and column
(`self.emissions.xxx[j][aa_idx]`). -/
def getE (t : List (List ℚ)) (j k : Nat) : ℚ := (t.getD j []).getD k 0

/-- ASCII upper-casing of a byte (`u8::to_ascii_uppercase`). -/
def toAsciiUpper (b : Nat) : Nat := if 97 ≤ b ∧ b ≤ 122 then b - 32 else b

/-- The search loop of `aa_to_index`: scan the alphabet with a running
index, return the index of the first hit, and fall through to `0` when
the byte is not in the alphabet. -/
def aaFind (target : Nat) : List Nat → Nat → Nat
  | [], _ => 0
  | acid :: rest, i => if acid = target then i else aaFind target rest (i + 1)

/-- The `HMM::aa_to_index` method (identical in both source files): case
fold the byte, then linear-search the alphabet; unknown bytes map to
index 0. -/
def aa_to_index (aa : Nat) : Nat := aaFind (toAsciiUpper aa) AMINO_ACIDS 0

/-- The `HMM::new` constructor (identical in both source files): fixed
transition constants, insert emissions uniform `0.05`, match emissions
the background frequencies linearly biased by position.  The source
first fills `match_emissions` with `0.05` and then overwrites every one
of its `length × 20` entries in a double loop; the comprehension below
is that final table. -/
def HMM.new (length : Nat) : HMM :=
  { length := length
    transitions :=
      { match_to_match := List.replicate length 0.8
        match_to_insert := List.replicate length 0.1
        match_to_delete := List.replicate length 0.1
        insert_to_match := List.replicate length 0.5
        insert_to_insert := List.replicate length 0.5
        delete_to_match := List.replicate length 0.5
        delete_to_delete := List.replicate length 0.5 }
    emissions :=
      { match_emissions :=
          (List.range length).map fun (i : Nat) =>
            (List.range AA_COUNT).map fun (j : Nat) =>
              aa_freqs.getD j 0 * (1 + 0.2 * ((i : ℚ) / (length : ℚ)))
        insert_emissions := List.replicate length (List.replicate AA_COUNT 0.05) } }

namespace Baseline

/-- One column triple of a DP row of the full-table decoder: the `Match`,
`Insert`, `Delete` cells of model position `j`, each a score paired with
its recorded traceback predecessor.  The source linearizes these as
`dp[i][3*j+k]` / `path[i][3*j+k]` for `k = 0,1,2`. -/
structure BCol where
  m : ℚ × State
  ins : ℚ × State
  del : ℚ × State
deriving DecidableEq, Repr

/-- Initialization value of a DP cell: score `f64::NEG_INFINITY`
(probability 0) and path tag `State::Match(())`. -/
def dB : BCol := ⟨(0, State.Match), (0, State.Match), (0, State.Match)⟩

/-- The three-way choice of `hmmer_baseline.rs` lines 134-143: prefer the
match predecessor when it is greatest (ties included), then the insert
predecessor, then the delete predecessor. -/
def selMatch3 (pm pi_ pd : ℚ) : ℚ × State :=
  if pm ≥ pi_ ∧ pm ≥ pd then (pm, State.Match)
  else if pi_ ≥ pd then (pi_, State.Insert)
  else (pd, State.Delete)

/-- The two-way choice for insert cells (lines 154-160): match predecessor
on ties. -/
def selMI (a b : ℚ) : ℚ × State :=
  if a ≥ b then (a, State.Match) else (b, State.Insert)

/-- The two-way choice for delete cells (lines 170-176): match predecessor
on ties. -/
def selMD (a b : ℚ) : ℚ × State :=
  if a ≥ b then (a, State.Match) else (b, State.Delete)

/-- Column `j` of DP row 0 as produced by the `i = 0` pass of the fill
loop: the match cell keeps its initialization (`dp[0][0] = 0.0`, i.e.
probability 1, at column 0 and `-∞` elsewhere), the insert cell is never
written in row 0, and for `j > 0` the delete cell is filled from the
same-row match and delete cells of column `j-1`, whose current scores
are the carries `cm` and `cd`. -/
def b0Cell (hmm : HMM) (j : Nat) (cm cd : ℚ) : BCol :=
  { m := (if j = 0 then 1 else 0, State.Match)
    ins := (0, State.Match)
    del := if j = 0 then (0, State.Match) else
      selMD (cm * getT hmm.transitions.match_to_delete (j - 1))
            (cd * getT hmm.transitions.delete_to_delete (j - 1)) }

/-- Build `fuel` consecutive columns of row 0 starting at column `j`,
threading the current row's previous-column match and delete scores. -/
def b0Cols (hmm : HMM) : Nat → ℚ → ℚ → Nat → List BCol
  | _, _, _, 0 => []
  | j, cm, cd, fuel + 1 =>
    b0Cell hmm j cm cd ::
      b0Cols hmm (j + 1) (b0Cell hmm j cm cd).m.1 (b0Cell hmm j cm cd).del.1 fuel

/-- DP row 0 of the full-table decoder, after the `i = 0` iteration of the
fill loop. -/
def bRow0 (hmm : HMM) : List BCol := b0Cols hmm 0 0 0 hmm.length

/-- Column `j` of a DP row with `i > 0`, for the residue with alphabet
index `aa`, given the previous row `prev` and the current row's
previous-column match and delete scores `cm`, `cd`:
`hmmer_baseline.rs` lines 119-177.  Cells the source does not write
(match and delete at column 0) keep their initialization. -/
def bCell (hmm : HMM) (aa : Nat) (prev : List BCol) (j : Nat) (cm cd : ℚ) : BCol :=
  { m := if j = 0 then (0, State.Match) else
      selMatch3
        ((prev.getD (j - 1) dB).m.1 * getT hmm.transitions.match_to_match (j - 1)
          * getE hmm.emissions.match_emissions j aa)
        ((prev.getD (j - 1) dB).ins.1 * getT hmm.transitions.insert_to_match (j - 1)
          * getE hmm.emissions.match_emissions j aa)
        ((prev.getD (j - 1) dB).del.1 * getT hmm.transitions.delete_to_match (j - 1)
          * getE hmm.emissions.match_emissions j aa)
    ins := selMI
        ((prev.getD j dB).m.1 * getT hmm.transitions.match_to_insert j
          * getE hmm.emissions.insert_emissions j aa)
        ((prev.getD j dB).ins.1 * getT hmm.transitions.insert_to_insert j
          * getE hmm.emissions.insert_emissions j aa)
    del := if j = 0 then (0, State.Match) else
      selMD (cm * getT hmm.transitions.match_to_delete (j - 1))
            (cd * getT hmm.transitions.delete_to_delete (j - 1)) }

/-- Build `fuel` consecutive columns of a row with `i > 0` starting at
column `j`, threading the current row's previous-column match and delete
scores exactly as the in-place fill does. -/
def bCols (hmm : HMM) (aa : Nat) (prev : List BCol) : Nat → ℚ → ℚ → Nat → List BCol
  | _, _, _, 0 => []
  | j, cm, cd, fuel + 1 =>
    bCell hmm aa prev j cm cd ::
      bCols hmm aa prev (j + 1) (bCell hmm aa prev j cm cd).m.1
        (bCell hmm aa prev j cm cd).del.1 fuel

/-- One full `i > 0` iteration of the fill loop: from row `i-1` and the
residue byte's alphabet index, produce row `i`. -/
def bStep (hmm : HMM) (aa : Nat) (prev : List BCol) : List BCol :=
  bCols hmm aa prev 0 0 0 hmm.length

/-- DP row `i` of the full-table decoder on `seq` (rows beyond
`seq.length` are not produced by the source; `bRowAt` is only read at
`i ≤ seq.length`). -/
def bRowAt (hmm : HMM) (seq : List Nat) (i : Nat) : List BCol :=
  (seq.take i).foldl (fun r a => bStep hmm (aa_to_index a) r) (bRow0 hmm)

/-- The final scan of `viterbi` (lines 181-188): the running best match
score over the last row, starting from `f64::NEG_INFINITY` and updating
on strict improvement. -/
def bestScore (row : List BCol) : ℚ :=
  row.foldl (fun best c => if c.m.1 > best then c.m.1 else best) 0

/-- Score computed by `HMM::viterbi` of `hmmer_baseline.rs` once the DP
table exists (model length ≥ 1). -/
def viterbiScore (hmm : HMM) (seq : List Nat) : ℚ :=
  bestScore (bRowAt hmm seq seq.length)

/-- The `HMM::viterbi` method of `hmmer_baseline.rs`.  When the model
length is `0` the very first statement `dp[0][0] = 0.0` indexes a
zero-length row and panics, modelled as `none`. -/
def viterbi (hmm : HMM) (seq : List Nat) : Option ℚ :=
  if hmm.length = 0 then none else some (viterbiScore hmm seq)

end Baseline

namespace Guest

/-- One column triple of a score row of the rolling two-row decoder
(`prev_scores` / `curr_scores` entries `3*j+k` for `k = 0,1,2`); the
guest records no traceback. -/
structure GCol where
  m : ℚ
  ins : ℚ
  del : ℚ
deriving DecidableEq, Repr

/-- Reset value of a rolling-row cell: `f64::NEG_INFINITY`. -/
def dG : GCol := ⟨0, 0, 0⟩

/-- Column `j` of the initial `prev_scores` row: all `-∞` except the
single store `prev_scores[0] = 0.0` (log-probability 1 at the column-0
match slot). -/
def gInitCell (j : Nat) : GCol := ⟨if j = 0 then 1 else 0, 0, 0⟩

/-- Build `fuel` consecutive columns of the initial row starting at
column `j`. -/
def gInitCols : Nat → Nat → List GCol
  | _, 0 => []
  | j, fuel + 1 => gInitCell j :: gInitCols (j + 1) fuel

/-- The initial `prev_scores` row of `main.rs` lines 114-118. -/
def gInit (hmm : HMM) : List GCol := gInitCols 0 hmm.length

/-- Column `j` of `curr_scores` for the residue with alphabet index `aa`
(`main.rs` lines 129-184), given the previous row `prev` and the current
row's previous-column match and delete scores `cm`, `cd`.  Cells the
source does not write (match and delete at column 0) keep the row's
reset value `-∞`. -/
def gCell (hmm : HMM) (aa : Nat) (prev : List GCol) (j : Nat) (cm cd : ℚ) : GCol :=
  { m := if j = 0 then 0 else
      max (max
        ((prev.getD (j - 1) dG).m * getT hmm.transitions.match_to_match (j - 1)
          * getE hmm.emissions.match_emissions j aa)
        ((prev.getD (j - 1) dG).ins * getT hmm.transitions.insert_to_match (j - 1)
          * getE hmm.emissions.match_emissions j aa))
        ((prev.getD (j - 1) dG).del * getT hmm.transitions.delete_to_match (j - 1)
          * getE hmm.emissions.match_emissions j aa)
    ins := max
        ((prev.getD j dG).m * getT hmm.transitions.match_to_insert j
          * getE hmm.emissions.insert_emissions j aa)
        ((prev.getD j dG).ins * getT hmm.transitions.insert_to_insert j
          * getE hmm.emissions.insert_emissions j aa)
    del := if j = 0 then 0 else
      max (cm * getT hmm.transitions.match_to_delete (j - 1))
          (cd * getT hmm.transitions.delete_to_delete (j - 1)) }

/-- Build `fuel` consecutive columns of `curr_scores` starting at column
`j`, threading the current row's previous-column match and delete
scores. -/
def gCols (hmm : HMM) (aa : Nat) (prev : List GCol) : Nat → ℚ → ℚ → Nat → List GCol
  | _, _, _, 0 => []
  | j, cm, cd, fuel + 1 =>
    gCell hmm aa prev j cm cd ::
      gCols hmm aa prev (j + 1) (gCell hmm aa prev j cm cd).m
        (gCell hmm aa prev j cm cd).del fuel

/-- One iteration of the guest's per-residue loop: reset `curr_scores`,
fill it from `prev_scores`, swap. -/
def gStep (hmm : HMM) (aa : Nat) (prev : List GCol) : List GCol :=
  gCols hmm aa prev 0 0 0 hmm.length

/-- The `prev_scores` row after the first `i` residues of `seq` have been
consumed. -/
def gRowAt (hmm : HMM) (seq : List Nat) (i : Nat) : List GCol :=
  (seq.take i).foldl (fun r a => gStep hmm (aa_to_index a) r) (gInit hmm)

/-- The final scan of the guest `viterbi` (lines 190-197). -/
def bestScore (row : List GCol) : ℚ :=
  row.foldl (fun best c => if c.m > best then c.m else best) 0

/-- Score computed by the guest `HMM::viterbi` once the score rows exist
(model length ≥ 1). -/
def viterbiScore (hmm : HMM) (seq : List Nat) : ℚ :=
  bestScore (gRowAt hmm seq seq.length)

/-- The `HMM::viterbi` method of the guest.  When the model length is `0`
the initial store `prev_scores[0] = 0.0` indexes a zero-length vector
and panics, modelled as `none`. -/
def viterbi (hmm : HMM) (seq : List Nat) : Option ℚ :=
  if hmm.length = 0 then none else some (viterbiScore hmm seq)

end Guest

end Hmmer

namespace Hmmer

/-! Generic list access lemmas used throughout. -/

theorem getD_map_eq {α β : Type} (f : α → β) (l : List α) (j : Nat) (d : α) :
    (l.map f).getD j (f d) = f (l.getD j d) := by
  induction l generalizing j with
  | nil => simp [List.getD]
  | cons a t ih =>
    cases j with
    | zero => simp
    | succ k => simp [ih k]

theorem nonneg_getD {l : List ℚ} (h : ∀ x ∈ l, 0 ≤ x) (j : Nat) : 0 ≤ l.getD j 0 := by
  rcases Nat.lt_or_ge j l.length with hj | hj
  · rw [List.getD_eq_getElem l 0 hj]
    exact h _ (List.getElem_mem hj)
  · rw [List.getD_eq_default l 0 hj]

theorem getD_mem {α : Type} (l : List α) (j : Nat) (d : α) (h : j < l.length) :
    l.getD j d ∈ l := by
  rw [List.getD_eq_getElem l d h]
  exact List.getElem_mem h

namespace Baseline

theorem selMatch3_fst (a b c : ℚ) : (selMatch3 a b c).1 = max (max a b) c := by
  unfold selMatch3
  split_ifs with h1 h2
  · rw [max_eq_left h1.1, max_eq_left h1.2]
  · rcases not_and_or.mp h1 with h | h
    · push_neg at h
      rw [max_eq_right h.le, max_eq_left h2]
    · push_neg at h
      have hab : a < b := lt_of_lt_of_le h h2
      rw [max_eq_right hab.le, max_eq_left h2]
  · push_neg at h2
    have hac : a < c := by
      rcases lt_or_ge a c with h | h
      · exact h
      · exact absurd ⟨le_trans h2.le h, h⟩ h1
    rw [max_eq_right (max_le hac.le h2.le)]

theorem selMI_fst (a b : ℚ) : (selMI a b).1 = max a b := by
  unfold selMI
  split_ifs with h
  · rw [max_eq_left h]
  · push_neg at h
    rw [max_eq_right h.le]

theorem selMD_fst (a b : ℚ) : (selMD a b).1 = max a b := by
  unfold selMD
  split_ifs with h
  · rw [max_eq_left h]
  · push_neg at h
    rw [max_eq_right h.le]

theorem b0Cols_length (hmm : HMM) (fuel : Nat) :
    ∀ (j : Nat) (cm cd : ℚ), (b0Cols hmm j cm cd fuel).length = fuel := by
  induction fuel with
  | zero => intro j cm cd; rfl
  | succ n ih => intro j cm cd; simp [b0Cols, ih]

theorem bCols_length (hmm : HMM) (aa : Nat) (prev : List BCol) (fuel : Nat) :
    ∀ (j : Nat) (cm cd : ℚ), (bCols hmm aa prev j cm cd fuel).length = fuel := by
  induction fuel with
  | zero => intro j cm cd; rfl
  | succ n ih => intro j cm cd; simp [bCols, ih]

theorem bRow0_length (hmm : HMM) : (bRow0 hmm).length = hmm.length :=
  b0Cols_length hmm hmm.length 0 0 0

theorem bStep_length (hmm : HMM) (aa : Nat) (prev : List BCol) :
    (bStep hmm aa prev).length = hmm.length :=
  bCols_length hmm aa prev hmm.length 0 0 0

theorem bRowAt_length (hmm : HMM) (seq : List Nat) (i : Nat) :
    (bRowAt hmm seq i).length = hmm.length := by
  unfold bRowAt
  have h : ∀ (l : List Nat) (r : List BCol), r.length = hmm.length →
      (l.foldl (fun r a => bStep hmm (aa_to_index a) r) r).length = hmm.length := by
    intro l
    induction l with
    | nil => intro r hr; exact hr
    | cons a t ih => intro r _; exact ih _ (bStep_length hmm (aa_to_index a) r)
  exact h _ _ (bRow0_length hmm)

end Baseline

end Hmmer

namespace Hmmer

/-! Generic characterization of the column builders: all four row builders
(`b0Cols`, `bCols`, `gCols`, and the guest initial row) produce column
`k+1` by applying their cell function to the column index and the match
and delete scores of column `k`, mirroring the in-place left-to-right
fill of the source. -/

theorem cols_getD_zero {α : Type} (d : α) (pm pd : α → ℚ) (cell : Nat → ℚ → ℚ → α)
    (cols : Nat → ℚ → ℚ → Nat → List α)
    (hc : ∀ j cm cd f, cols j cm cd (f + 1) =
      cell j cm cd :: cols (j + 1) (pm (cell j cm cd)) (pd (cell j cm cd)) f)
    (j : Nat) (cm cd : ℚ) (f : Nat) :
    (cols j cm cd (f + 1)).getD 0 d = cell j cm cd := by
  rw [hc]
  rfl

theorem cols_getD_succ {α : Type} (d : α) (pm pd : α → ℚ) (cell : Nat → ℚ → ℚ → α)
    (cols : Nat → ℚ → ℚ → Nat → List α)
    (hc : ∀ j cm cd f, cols j cm cd (f + 1) =
      cell j cm cd :: cols (j + 1) (pm (cell j cm cd)) (pd (cell j cm cd)) f) :
    ∀ (fuel j k : Nat) (cm cd : ℚ), k + 1 < fuel →
      (cols j cm cd fuel).getD (k + 1) d =
        cell (j + (k + 1)) (pm ((cols j cm cd fuel).getD k d))
          (pd ((cols j cm cd fuel).getD k d)) := by
  intro fuel
  induction fuel with
  | zero => intro j k cm cd h; omega
  | succ n ih =>
    intro j k cm cd h
    rw [hc]
    cases k with
    | zero =>
      obtain ⟨n', rfl⟩ : ∃ n', n = n' + 1 := ⟨n - 1, by omega⟩
      rw [List.getD_cons_succ, List.getD_cons_zero, hc, List.getD_cons_zero]
    | succ k' =>
      rw [List.getD_cons_succ, List.getD_cons_succ,
        ih (j + 1) k' (pm (cell j cm cd)) (pd (cell j cm cd)) (by omega)]
      have hj : j + 1 + (k' + 1) = j + (k' + 1 + 1) := by omega
      rw [hj]

namespace Baseline

theorem bCols_cons (hmm : HMM) (aa : Nat) (prev : List BCol) (j : Nat) (cm cd : ℚ) (f : Nat) :
    bCols hmm aa prev j cm cd (f + 1) =
      bCell hmm aa prev j cm cd ::
        bCols hmm aa prev (j + 1) (bCell hmm aa prev j cm cd).m.1
          (bCell hmm aa prev j cm cd).del.1 f := rfl

theorem b0Cols_cons (hmm : HMM) (j : Nat) (cm cd : ℚ) (f : Nat) :
    b0Cols hmm j cm cd (f + 1) =
      b0Cell hmm j cm cd ::
        b0Cols hmm (j + 1) (b0Cell hmm j cm cd).m.1 (b0Cell hmm j cm cd).del.1 f := rfl

theorem bStep_getD_zero (hmm : HMM) (aa : Nat) (prev : List BCol) (h : 0 < hmm.length) :
    (bStep hmm aa prev).getD 0 dB = bCell hmm aa prev 0 0 0 := by
  obtain ⟨f, hf⟩ : ∃ f, hmm.length = f + 1 := ⟨hmm.length - 1, by omega⟩
  unfold bStep
  rw [hf]
  exact cols_getD_zero dB (fun c => c.m.1) (fun c => c.del.1) _ _
    (bCols_cons hmm aa prev) 0 0 0 f

theorem bStep_getD_succ (hmm : HMM) (aa : Nat) (prev : List BCol) (k : Nat)
    (h : k + 1 < hmm.length) :
    (bStep hmm aa prev).getD (k + 1) dB =
      bCell hmm aa prev (k + 1) ((bStep hmm aa prev).getD k dB).m.1
        ((bStep hmm aa prev).getD k dB).del.1 := by
  unfold bStep
  have := cols_getD_succ dB (fun c => c.m.1) (fun c => c.del.1) _ _
    (bCols_cons hmm aa prev) hmm.length 0 k 0 0 h
  simpa using this

theorem bRow0_getD_zero (hmm : HMM) (h : 0 < hmm.length) :
    (bRow0 hmm).getD 0 dB = b0Cell hmm 0 0 0 := by
  obtain ⟨f, hf⟩ : ∃ f, hmm.length = f + 1 := ⟨hmm.length - 1, by omega⟩
  unfold bRow0
  rw [hf]
  exact cols_getD_zero dB (fun c => c.m.1) (fun c => c.del.1) _ _
    (b0Cols_cons hmm) 0 0 0 f

theorem bRow0_getD_succ (hmm : HMM) (k : Nat) (h : k + 1 < hmm.length) :
    (bRow0 hmm).getD (k + 1) dB =
      b0Cell hmm (k + 1) ((bRow0 hmm).getD k dB).m.1 ((bRow0 hmm).getD k dB).del.1 := by
  unfold bRow0
  have := cols_getD_succ dB (fun c => c.m.1) (fun c => c.del.1) _ _
    (b0Cols_cons hmm) hmm.length 0 k 0 0 h
  simpa using this

end Baseline

namespace Guest

theorem gCols_cons (hmm : HMM) (aa : Nat) (prev : List GCol) (j : Nat) (cm cd : ℚ) (f : Nat) :
    gCols hmm aa prev j cm cd (f + 1) =
      gCell hmm aa prev j cm cd ::
        gCols hmm aa prev (j + 1) (gCell hmm aa prev j cm cd).m
          (gCell hmm aa prev j cm cd).del f := rfl

theorem gCols_length (hmm : HMM) (aa : Nat) (prev : List GCol) (fuel : Nat) :
    ∀ (j : Nat) (cm cd : ℚ), (gCols hmm aa prev j cm cd fuel).length = fuel := by
  induction fuel with
  | zero => intro j cm cd; rfl
  | succ n ih => intro j cm cd; simp [gCols, ih]

theorem gInitCols_length (fuel : Nat) : ∀ j : Nat, (gInitCols j fuel).length = fuel := by
  induction fuel with
  | zero => intro j; rfl
  | succ n ih => intro j; simp [gInitCols, ih]

theorem gInit_length (hmm : HMM) : (gInit hmm).length = hmm.length :=
  gInitCols_length hmm.length 0

theorem gStep_length (hmm : HMM) (aa : Nat) (prev : List GCol) :
    (gStep hmm aa prev).length = hmm.length :=
  gCols_length hmm aa prev hmm.length 0 0 0

theorem gRowAt_length (hmm : HMM) (seq : List Nat) (i : Nat) :
    (gRowAt hmm seq i).length = hmm.length := by
  unfold gRowAt
  have h : ∀ (l : List Nat) (r : List GCol), r.length = hmm.length →
      (l.foldl (fun r a => gStep hmm (aa_to_index a) r) r).length = hmm.length := by
    intro l
    induction l with
    | nil => intro r hr; exact hr
    | cons a t ih => intro r _; exact ih _ (gStep_length hmm (aa_to_index a) r)
  exact h _ _ (gInit_length hmm)

theorem gStep_getD_zero (hmm : HMM) (aa : Nat) (prev : List GCol) (h : 0 < hmm.length) :
    (gStep hmm aa prev).getD 0 dG = gCell hmm aa prev 0 0 0 := by
  obtain ⟨f, hf⟩ : ∃ f, hmm.length = f + 1 := ⟨hmm.length - 1, by omega⟩
  unfold gStep
  rw [hf]
  exact cols_getD_zero dG (fun c => c.m) (fun c => c.del) _ _
    (gCols_cons hmm aa prev) 0 0 0 f

theorem gStep_getD_succ (hmm : HMM) (aa : Nat) (prev : List GCol) (k : Nat)
    (h : k + 1 < hmm.length) :
    (gStep hmm aa prev).getD (k + 1) dG =
      gCell hmm aa prev (k + 1) ((gStep hmm aa prev).getD k dG).m
        ((gStep hmm aa prev).getD k dG).del := by
  unfold gStep
  have := cols_getD_succ dG (fun c => c.m) (fun c => c.del) _ _
    (gCols_cons hmm aa prev) hmm.length 0 k 0 0 h
  simpa using this

theorem gInitCols_getD (fuel : Nat) :
    ∀ (j k : Nat), k < fuel → (gInitCols j fuel).getD k dG = gInitCell (j + k) := by
  induction fuel with
  | zero => intro j k h; omega
  | succ n ih =>
    intro j k h
    cases k with
    | zero => simp [gInitCols]
    | succ k' =>
      rw [gInitCols, List.getD_cons_succ, ih (j + 1) k' (by omega)]
      have hj : j + 1 + k' = j + (k' + 1) := by omega
      rw [hj]

theorem gInit_getD (hmm : HMM) (k : Nat) (h : k < hmm.length) :
    (gInit hmm).getD k dG = gInitCell k := by
  unfold gInit
  simpa using gInitCols_getD hmm.length 0 k h

end Guest

end Hmmer

namespace Hmmer

/-! Relating the two decoders.  `projB` forgets the traceback tags of a
full-table DP column; the per-row recurrences of the two decoders agree
up to this projection (the tie-break selectors compute running maxima),
while the initial rows differ: the full-table decoder's row 0 carries the
delete chain filled by its `i = 0` pass, the rolling decoder's initial
row does not. -/

def projB (c : Baseline.BCol) : Guest.GCol := ⟨c.m.1, c.ins.1, c.del.1⟩

theorem projB_dB : projB Baseline.dB = Guest.dG := rfl

theorem getD_projB (l : List Baseline.BCol) (j : Nat) :
    (l.map projB).getD j Guest.dG = projB (l.getD j Baseline.dB) :=
  getD_map_eq projB l j Baseline.dB

theorem bCell_proj (hmm : HMM) (aa : Nat) (prev : List Baseline.BCol) (j : Nat) (cm cd : ℚ) :
    projB (Baseline.bCell hmm aa prev j cm cd) =
      Guest.gCell hmm aa (prev.map projB) j cm cd := by
  unfold Baseline.bCell Guest.gCell
  simp only [getD_projB]
  simp only [projB, apply_ite (Prod.fst (α := ℚ) (β := State)),
    Baseline.selMatch3_fst, Baseline.selMI_fst, Baseline.selMD_fst]

theorem bCols_proj (hmm : HMM) (aa : Nat) (prev : List Baseline.BCol) (fuel : Nat) :
    ∀ (j : Nat) (cm cd : ℚ),
      (Baseline.bCols hmm aa prev j cm cd fuel).map projB =
        Guest.gCols hmm aa (prev.map projB) j cm cd fuel := by
  induction fuel with
  | zero => intro j cm cd; rfl
  | succ n ih =>
    intro j cm cd
    rw [Baseline.bCols_cons, Guest.gCols_cons, List.map_cons, bCell_proj, ih]
    have hm : (Baseline.bCell hmm aa prev j cm cd).m.1 =
        (Guest.gCell hmm aa (prev.map projB) j cm cd).m := by
      rw [← bCell_proj]; rfl
    have hd : (Baseline.bCell hmm aa prev j cm cd).del.1 =
        (Guest.gCell hmm aa (prev.map projB) j cm cd).del := by
      rw [← bCell_proj]; rfl
    rw [hm, hd]

theorem bStep_proj (hmm : HMM) (aa : Nat) (prev : List Baseline.BCol) :
    (Baseline.bStep hmm aa prev).map projB = Guest.gStep hmm aa (prev.map projB) :=
  bCols_proj hmm aa prev hmm.length 0 0 0

/-- The probability-positivity side condition of the spec (§3: all
transition and emission probabilities are probabilities, hence
nonnegative); in log space a negative probability has no logarithm, so
every model the decoders are run on satisfies it. -/
structure HMM.Nonneg (hmm : HMM) : Prop where
  m2m : ∀ x ∈ hmm.transitions.match_to_match, 0 ≤ x
  m2i : ∀ x ∈ hmm.transitions.match_to_insert, 0 ≤ x
  m2d : ∀ x ∈ hmm.transitions.match_to_delete, 0 ≤ x
  i2m : ∀ x ∈ hmm.transitions.insert_to_match, 0 ≤ x
  i2i : ∀ x ∈ hmm.transitions.insert_to_insert, 0 ≤ x
  d2m : ∀ x ∈ hmm.transitions.delete_to_match, 0 ≤ x
  d2d : ∀ x ∈ hmm.transitions.delete_to_delete, 0 ≤ x
  me : ∀ r ∈ hmm.emissions.match_emissions, ∀ x ∈ r, 0 ≤ x
  ie : ∀ r ∈ hmm.emissions.insert_emissions, ∀ x ∈ r, 0 ≤ x

theorem nonneg_getE {t : List (List ℚ)} (h : ∀ r ∈ t, ∀ x ∈ r, 0 ≤ x) (j k : Nat) :
    0 ≤ getE t j k := by
  unfold getE
  rcases Nat.lt_or_ge j t.length with hj | hj
  · apply nonneg_getD
    intro x hx
    exact h _ (getD_mem t j [] hj) x hx
  · rw [List.getD_eq_default t [] hj]
    rfl

/-- Componentwise order on rolling-row cells. -/
def leG (c1 c2 : Guest.GCol) : Prop := c1.m ≤ c2.m ∧ c1.ins ≤ c2.ins ∧ c1.del ≤ c2.del

theorem leG_refl (c : Guest.GCol) : leG c c := ⟨le_refl _, le_refl _, le_refl _⟩

theorem forall₂_leG_getD {r1 r2 : List Guest.GCol} (h : List.Forall₂ leG r1 r2) (j : Nat) :
    leG (r1.getD j Guest.dG) (r2.getD j Guest.dG) := by
  induction h generalizing j with
  | nil => exact leG_refl _
  | cons hab _ ih =>
    cases j with
    | zero => exact hab
    | succ k => exact ih k

theorem mul2_le_mul2 {a b t e : ℚ} (h : a ≤ b) (ht : 0 ≤ t) (he : 0 ≤ e) :
    a * t * e ≤ b * t * e :=
  mul_le_mul_of_nonneg_right (mul_le_mul_of_nonneg_right h ht) he

theorem gCell_mono (hmm : HMM) (hn : hmm.Nonneg) (aa : Nat) {p1 p2 : List Guest.GCol}
    (hp : List.Forall₂ leG p1 p2) (j : Nat) {cm1 cm2 cd1 cd2 : ℚ}
    (hm : cm1 ≤ cm2) (hd : cd1 ≤ cd2) :
    leG (Guest.gCell hmm aa p1 j cm1 cd1) (Guest.gCell hmm aa p2 j cm2 cd2) := by
  have hprev := forall₂_leG_getD hp
  refine ⟨?_, ?_, ?_⟩
  · show (if j = 0 then (0 : ℚ) else _) ≤ (if j = 0 then (0 : ℚ) else _)
    split_ifs with h0
    · exact le_refl 0
    · refine max_le_max (max_le_max ?_ ?_) ?_
      · exact mul2_le_mul2 (hprev (j - 1)).1 (nonneg_getD hn.m2m _) (nonneg_getE hn.me _ _)
      · exact mul2_le_mul2 (hprev (j - 1)).2.1 (nonneg_getD hn.i2m _) (nonneg_getE hn.me _ _)
      · exact mul2_le_mul2 (hprev (j - 1)).2.2 (nonneg_getD hn.d2m _) (nonneg_getE hn.me _ _)
  · refine max_le_max ?_ ?_
    · exact mul2_le_mul2 (hprev j).1 (nonneg_getD hn.m2i _) (nonneg_getE hn.ie _ _)
    · exact mul2_le_mul2 (hprev j).2.1 (nonneg_getD hn.i2i _) (nonneg_getE hn.ie _ _)
  · show (if j = 0 then (0 : ℚ) else _) ≤ (if j = 0 then (0 : ℚ) else _)
    split_ifs with h0
    · exact le_refl 0
    · exact max_le_max (mul_le_mul_of_nonneg_right hm (nonneg_getD hn.m2d _))
        (mul_le_mul_of_nonneg_right hd (nonneg_getD hn.d2d _))

theorem gCols_mono (hmm : HMM) (hn : hmm.Nonneg) (aa : Nat) (fuel : Nat) :
    ∀ {p1 p2 : List Guest.GCol}, List.Forall₂ leG p1 p2 →
      ∀ (j : Nat) {cm1 cm2 cd1 cd2 : ℚ}, cm1 ≤ cm2 → cd1 ≤ cd2 →
        List.Forall₂ leG (Guest.gCols hmm aa p1 j cm1 cd1 fuel)
          (Guest.gCols hmm aa p2 j cm2 cd2 fuel) := by
  induction fuel with
  | zero => intro p1 p2 _ j cm1 cm2 cd1 cd2 _ _; exact List.Forall₂.nil
  | succ n ih =>
    intro p1 p2 hp j cm1 cm2 cd1 cd2 hm hd
    rw [Guest.gCols_cons, Guest.gCols_cons]
    have hc := gCell_mono hmm hn aa hp j hm hd
    exact List.Forall₂.cons hc (ih hp (j + 1) hc.1 hc.2.2)

theorem gStep_mono (hmm : HMM) (hn : hmm.Nonneg) (aa : Nat) {p1 p2 : List Guest.GCol}
    (hp : List.Forall₂ leG p1 p2) :
    List.Forall₂ leG (Guest.gStep hmm aa p1) (Guest.gStep hmm aa p2) :=
  gCols_mono hmm hn aa hmm.length hp 0 (le_refl 0) (le_refl 0)

theorem init_le (hmm : HMM) (hn : hmm.Nonneg) (fuel : Nat) :
    ∀ (j : Nat) {cm cd : ℚ}, 0 ≤ cm → 0 ≤ cd →
      List.Forall₂ leG (Guest.gInitCols j fuel)
        ((Baseline.b0Cols hmm j cm cd fuel).map projB) := by
  induction fuel with
  | zero => intro j cm cd _ _; exact List.Forall₂.nil
  | succ n ih =>
    intro j cm cd hm hd
    rw [Baseline.b0Cols_cons, List.map_cons]
    show List.Forall₂ leG (Guest.gInitCell j :: Guest.gInitCols (j + 1) n) _
    have hm0 : (0 : ℚ) ≤ (Baseline.b0Cell hmm j cm cd).m.1 := by
      show (0 : ℚ) ≤ (if j = 0 then (1 : ℚ) else 0)
      split_ifs <;> norm_num
    have hd0 : (0 : ℚ) ≤ (Baseline.b0Cell hmm j cm cd).del.1 := by
      show (0 : ℚ) ≤ (if j = 0 then ((0 : ℚ), State.Match) else _).1
      split_ifs with h0
      · exact le_refl 0
      · rw [Baseline.selMD_fst]
        exact le_trans (mul_nonneg hm (nonneg_getD hn.m2d _)) (le_max_left _ _)
    have hcell : leG (Guest.gInitCell j) (projB (Baseline.b0Cell hmm j cm cd)) := by
      refine ⟨le_refl _, le_refl _, ?_⟩
      exact hd0
    exact List.Forall₂.cons hcell (ih (j + 1) hm0 hd0)

theorem rows_le (hmm : HMM) (hn : hmm.Nonneg) (seq : List Nat) (i : Nat) :
    List.Forall₂ leG (Guest.gRowAt hmm seq i) ((Baseline.bRowAt hmm seq i).map projB) := by
  unfold Guest.gRowAt Baseline.bRowAt
  have main : ∀ (l : List Nat) (r1 : List Guest.GCol) (r2 : List Baseline.BCol),
      List.Forall₂ leG r1 (r2.map projB) →
      List.Forall₂ leG (l.foldl (fun r a => Guest.gStep hmm (aa_to_index a) r) r1)
        ((l.foldl (fun r a => Baseline.bStep hmm (aa_to_index a) r) r2).map projB) := by
    intro l
    induction l with
    | nil => intro r1 r2 h; exact h
    | cons a t ih =>
      intro r1 r2 h
      apply ih
      rw [bStep_proj]
      exact gStep_mono hmm hn _ h
  exact main _ _ _ (init_le hmm hn hmm.length 0 (le_refl 0) (le_refl 0))

end Hmmer

namespace Hmmer

theorem if_gt_eq_max (a x : ℚ) : (if x > a then x else a) = max a x := by
  split_ifs with h
  · exact (max_eq_right h.le).symm
  · push_neg at h
    exact (max_eq_left h).symm

theorem bestFold_mono : ∀ {l1 l2 : List Guest.GCol}, List.Forall₂ leG l1 l2 →
    ∀ {a1 a2 : ℚ}, a1 ≤ a2 →
      l1.foldl (fun best c => if c.m > best then c.m else best) a1 ≤
        l2.foldl (fun best c => if c.m > best then c.m else best) a2 := by
  intro l1 l2 h
  induction h with
  | nil => intro a1 a2 ha; exact ha
  | cons hc _ ih =>
    intro a1 a2 ha
    refine ih ?_
    dsimp only
    rw [if_gt_eq_max, if_gt_eq_max]
    exact max_le_max ha hc.1

theorem bestFold_init_le (l : List Guest.GCol) :
    ∀ a : ℚ, a ≤ l.foldl (fun best c => if c.m > best then c.m else best) a := by
  induction l with
  | nil => intro a; exact le_refl a
  | cons c t ih =>
    intro a
    refine le_trans ?_ (ih _)
    dsimp only
    rw [if_gt_eq_max]
    exact le_max_left a c.m

theorem bestFold_ge_mem {l : List Guest.GCol} {c : Guest.GCol} (hc : c ∈ l) :
    ∀ a : ℚ, c.m ≤ l.foldl (fun best c => if c.m > best then c.m else best) a := by
  induction l with
  | nil => exact absurd hc (List.not_mem_nil c)
  | cons x t ih =>
    intro a
    rw [List.foldl_cons]
    rcases List.mem_cons.mp hc with h | h
    · subst h
      refine le_trans ?_ (bestFold_init_le t _)
      dsimp only
      rw [if_gt_eq_max]
      exact le_max_right a c.m
    · exact ih h _

theorem Guest.bestScore_mono {r1 r2 : List Guest.GCol} (h : List.Forall₂ leG r1 r2) :
    Guest.bestScore r1 ≤ Guest.bestScore r2 :=
  bestFold_mono h (le_refl 0)

theorem Guest.bestScore_nonneg (l : List Guest.GCol) : 0 ≤ Guest.bestScore l :=
  bestFold_init_le l 0

theorem Guest.bestScore_ge_mem {l : List Guest.GCol} {c : Guest.GCol} (hc : c ∈ l) :
    c.m ≤ Guest.bestScore l :=
  bestFold_ge_mem hc 0

theorem Baseline.bestScore_eq_proj (l : List Baseline.BCol) :
    Baseline.bestScore l = Guest.bestScore (l.map projB) := by
  unfold Baseline.bestScore Guest.bestScore
  rw [List.foldl_map]
  rfl

/-- The rolling two-row decoder never scores above the full-table decoder:
its reachable DP cells are a subset (row 0 carries no delete chain), every
recurrence is monotone, and the final scan is monotone. -/
theorem viterbiScore_le (hmm : HMM) (hn : hmm.Nonneg) (seq : List Nat) :
    Guest.viterbiScore hmm seq ≤ Baseline.viterbiScore hmm seq := by
  unfold Guest.viterbiScore Baseline.viterbiScore
  rw [Baseline.bestScore_eq_proj]
  exact Guest.bestScore_mono (rows_le hmm hn seq seq.length)

theorem b0Cols_bestFold_tail (hmm : HMM) (fuel : Nat) :
    ∀ (j : Nat) (cm cd a : ℚ), 1 ≤ j → 0 ≤ a →
      (Baseline.b0Cols hmm j cm cd fuel).foldl
        (fun best c => if c.m.1 > best then c.m.1 else best) a = a := by
  induction fuel with
  | zero => intro j cm cd a _ _; rfl
  | succ n ih =>
    intro j cm cd a hj ha
    rw [Baseline.b0Cols_cons, List.foldl_cons]
    have hm : (Baseline.b0Cell hmm j cm cd).m.1 = 0 := by
      show (if j = 0 then (1 : ℚ) else 0) = 0
      rw [if_neg (by omega)]
    rw [hm, if_neg (by exact not_lt.mpr ha)]
    exact ih (j + 1) _ _ a (by omega) ha

theorem Baseline.bestScore_bRow0 (hmm : HMM) (h : 0 < hmm.length) :
    Baseline.bestScore (Baseline.bRow0 hmm) = 1 := by
  obtain ⟨f, hf⟩ : ∃ f, hmm.length = f + 1 := ⟨hmm.length - 1, by omega⟩
  unfold Baseline.bestScore Baseline.bRow0
  rw [hf, Baseline.b0Cols_cons, List.foldl_cons]
  have hm : (Baseline.b0Cell hmm 0 0 0).m.1 = 1 := rfl
  rw [hm, if_pos (by norm_num)]
  exact b0Cols_bestFold_tail hmm f 1 _ _ 1 (le_refl 1) (by norm_num)

theorem gInitCols_bestFold_tail (fuel : Nat) :
    ∀ (j : Nat) (a : ℚ), 1 ≤ j → 0 ≤ a →
      (Guest.gInitCols j fuel).foldl
        (fun best c => if c.m > best then c.m else best) a = a := by
  induction fuel with
  | zero => intro j a _ _; rfl
  | succ n ih =>
    intro j a hj ha
    show (Guest.gInitCols (j + 1) n).foldl _ (if (Guest.gInitCell j).m > a then _ else a) = a
    have hm : (Guest.gInitCell j).m = 0 := by
      show (if j = 0 then (1 : ℚ) else 0) = 0
      rw [if_neg (by omega)]
    rw [hm, if_neg (by exact not_lt.mpr ha)]
    exact ih (j + 1) a (by omega) ha

theorem Guest.bestScore_gInit (hmm : HMM) (h : 0 < hmm.length) :
    Guest.bestScore (Guest.gInit hmm) = 1 := by
  obtain ⟨f, hf⟩ : ∃ f, hmm.length = f + 1 := ⟨hmm.length - 1, by omega⟩
  unfold Guest.bestScore Guest.gInit
  rw [hf]
  show (Guest.gInitCols (0 + 1) f).foldl _ (if (Guest.gInitCell 0).m > 0 then _ else _) = 1
  have hm : (Guest.gInitCell 0).m = 1 := rfl
  rw [hm, if_pos (by norm_num)]
  exact gInitCols_bestFold_tail f 1 1 (le_refl 1) (by norm_num)

/-- On the empty sequence both decoders return the start-state score `0.0`
(probability 1). -/
theorem viterbiScore_nil (hmm : HMM) (h : 0 < hmm.length) :
    Baseline.viterbiScore hmm [] = 1 ∧ Guest.viterbiScore hmm [] = 1 := by
  constructor
  · show Baseline.bestScore (Baseline.bRowAt hmm [] 0) = 1
    show Baseline.bestScore (Baseline.bRow0 hmm) = 1
    exact Baseline.bestScore_bRow0 hmm h
  · show Guest.bestScore (Guest.gRowAt hmm [] 0) = 1
    show Guest.bestScore (Guest.gInit hmm) = 1
    exact Guest.bestScore_gInit hmm h

end Hmmer

namespace Hmmer

/-! Row recurrences, the alphabet map's range, and facts about the
fixed-constant models built by `HMM::new`. -/

theorem Baseline.bRowAt_succ (hmm : HMM) (seq : List Nat) (i : Nat) (h : i < seq.length) :
    Baseline.bRowAt hmm seq (i + 1) =
      Baseline.bStep hmm (aa_to_index (seq.getD i 0)) (Baseline.bRowAt hmm seq i) := by
  unfold Baseline.bRowAt
  rw [List.take_succ, List.getElem?_eq_getElem h, Option.toList_some, List.foldl_append,
    List.foldl_cons, List.foldl_nil, List.getD_eq_getElem seq 0 h]

theorem Guest.gRowAt_succ (hmm : HMM) (seq : List Nat) (i : Nat) (h : i < seq.length) :
    Guest.gRowAt hmm seq (i + 1) =
      Guest.gStep hmm (aa_to_index (seq.getD i 0)) (Guest.gRowAt hmm seq i) := by
  unfold Guest.gRowAt
  rw [List.take_succ, List.getElem?_eq_getElem h, Option.toList_some, List.foldl_append,
    List.foldl_cons, List.foldl_nil, List.getD_eq_getElem seq 0 h]

theorem aaFind_lt (t : Nat) : ∀ (l : List Nat) (i : Nat),
    aaFind t l i < i + l.length ∨ aaFind t l i = 0 := by
  intro l
  induction l with
  | nil => intro i; right; rfl
  | cons a rest ih =>
    intro i
    unfold aaFind
    split_ifs with h
    · left; simp
    · rcases ih (i + 1) with h' | h'
      · left
        simp only [List.length_cons]
        omega
      · right; exact h'

/-- Every byte, in or out of the alphabet, maps to an index below 20. -/
theorem aa_to_index_lt (b : Nat) : aa_to_index b < 20 := by
  unfold aa_to_index
  rcases aaFind_lt (toAsciiUpper b) AMINO_ACIDS 0 with h | h
  · simpa [AMINO_ACIDS] using h
  · omega

theorem getD_replicate_val {a d : ℚ} {n j : Nat} (h : j < n) :
    (List.replicate n a).getD j d = a := by
  rw [List.getD_eq_getElem _ d (by simpa using h)]
  exact List.getElem_replicate a _

theorem getD_replicate_list {a : List ℚ} {n j : Nat} (h : j < n) :
    (List.replicate n a).getD j [] = a := by
  rw [List.getD_eq_getElem _ [] (by simpa using h)]
  exact List.getElem_replicate a _

theorem aa_freqs_pos : ∀ x ∈ aa_freqs, 0 < x := by
  intro x hx
  fin_cases hx <;> norm_num

theorem aa_freqs_length : aa_freqs.length = 20 := rfl

theorem aa_freqs_getD_pos {aa : Nat} (h : aa < 20) : 0 < aa_freqs.getD aa 0 :=
  aa_freqs_pos _ (getD_mem aa_freqs aa 0 (by rw [aa_freqs_length]; exact h))

theorem getD_map_range {β : Type} (f : Nat → β) (d : β) {L j : Nat} (h : j < L) :
    ((List.range L).map f).getD j d = f j := by
  rw [List.getD_eq_getElem _ d (by simpa using h), List.getElem_map, List.getElem_range]

/-- The position bias `1 + 0.2 * (i / length)` of the match-emission table
is positive. -/
theorem bias_pos (i L : Nat) : 0 < (1 : ℚ) + 0.2 * ((i : ℚ) / (L : ℚ)) := by
  have h1 : (0 : ℚ) ≤ (i : ℚ) / (L : ℚ) :=
    div_nonneg (Nat.cast_nonneg i) (Nat.cast_nonneg L)
  nlinarith

theorem new_getE_match {L j aa : Nat} (hj : j < L) (haa : aa < 20) :
    getE (HMM.new L).emissions.match_emissions j aa =
      aa_freqs.getD aa 0 * (1 + 0.2 * ((j : ℚ) / (L : ℚ))) := by
  have hrw : (HMM.new L).emissions.match_emissions =
      (List.range L).map fun (i : Nat) =>
        (List.range AA_COUNT).map fun (k : Nat) =>
          aa_freqs.getD k 0 * (1 + 0.2 * ((i : ℚ) / (L : ℚ))) := rfl
  unfold getE
  rw [hrw, getD_map_range _ _ hj, getD_map_range _ _ (by simpa [AA_COUNT] using haa)]

theorem new_getE_match_pos {L j aa : Nat} (hj : j < L) (haa : aa < 20) :
    0 < getE (HMM.new L).emissions.match_emissions j aa := by
  rw [new_getE_match hj haa]
  exact mul_pos (aa_freqs_getD_pos haa) (bias_pos j L)

theorem new_getE_insert {L j aa : Nat} (hj : j < L) (haa : aa < 20) :
    getE (HMM.new L).emissions.insert_emissions j aa = 0.05 := by
  have hrw : (HMM.new L).emissions.insert_emissions =
      List.replicate L (List.replicate AA_COUNT (0.05 : ℚ)) := rfl
  unfold getE
  rw [hrw, getD_replicate_list hj, getD_replicate_val (by simpa [AA_COUNT] using haa)]

theorem HMM.new_nonneg (L : Nat) : (HMM.new L).Nonneg := by
  refine ⟨?_, ?_, ?_, ?_, ?_, ?_, ?_, ?_, ?_⟩
  · intro x hx; rw [List.eq_of_mem_replicate hx]; norm_num
  · intro x hx; rw [List.eq_of_mem_replicate hx]; norm_num
  · intro x hx; rw [List.eq_of_mem_replicate hx]; norm_num
  · intro x hx; rw [List.eq_of_mem_replicate hx]; norm_num
  · intro x hx; rw [List.eq_of_mem_replicate hx]; norm_num
  · intro x hx; rw [List.eq_of_mem_replicate hx]; norm_num
  · intro x hx; rw [List.eq_of_mem_replicate hx]; norm_num
  · intro r hr x hx
    simp only [HMM.new, List.mem_map, List.mem_range] at hr
    obtain ⟨i, _, rfl⟩ := hr
    simp only [List.mem_map, List.mem_range] at hx
    obtain ⟨j, hj20, rfl⟩ := hx
    exact le_of_lt (mul_pos (aa_freqs_getD_pos (by simpa [AA_COUNT] using hj20)) (bias_pos i L))
  · intro r hr x hx
    rw [List.eq_of_mem_replicate hr] at hx
    rw [List.eq_of_mem_replicate hx]
    norm_num

end Hmmer

namespace Hmmer

theorem new_getT_m2m {L j : Nat} (h : j < L) :
    getT (HMM.new L).transitions.match_to_match j = 0.8 := by
  have hrw : (HMM.new L).transitions.match_to_match = List.replicate L (0.8 : ℚ) := rfl
  unfold getT
  rw [hrw, getD_replicate_val h]

theorem new_getT_m2i {L j : Nat} (h : j < L) :
    getT (HMM.new L).transitions.match_to_insert j = 0.1 := by
  have hrw : (HMM.new L).transitions.match_to_insert = List.replicate L (0.1 : ℚ) := rfl
  unfold getT
  rw [hrw, getD_replicate_val h]

theorem new_getT_i2m {L j : Nat} (h : j < L) :
    getT (HMM.new L).transitions.insert_to_match j = 0.5 := by
  have hrw : (HMM.new L).transitions.insert_to_match = List.replicate L (0.5 : ℚ) := rfl
  unfold getT
  rw [hrw, getD_replicate_val h]

theorem new_getT_i2i {L j : Nat} (h : j < L) :
    getT (HMM.new L).transitions.insert_to_insert j = 0.5 := by
  have hrw : (HMM.new L).transitions.insert_to_insert = List.replicate L (0.5 : ℚ) := rfl
  unfold getT
  rw [hrw, getD_replicate_val h]

/-- Column 0 of the rolling decoder's rows on a fixed-constant model: the
initial row has match score 1 (log 0.0) there, and every later row has a
strictly positive insert score (the path that keeps inserting at model
position 0 never dies). -/
theorem new_col0 (L : Nat) (hL : 1 ≤ L) (seq : List Nat) :
    ∀ i, i ≤ seq.length →
      (i = 0 → ((Guest.gRowAt (HMM.new L) seq i).getD 0 Guest.dG).m = 1) ∧
      (1 ≤ i → 0 < ((Guest.gRowAt (HMM.new L) seq i).getD 0 Guest.dG).ins) := by
  intro i
  induction i with
  | zero =>
    intro _
    refine ⟨fun _ => ?_, fun h => absurd h (by omega)⟩
    show ((Guest.gInit (HMM.new L)).getD 0 Guest.dG).m = 1
    rw [Guest.gInit_getD _ 0 (by simpa [HMM.new] using hL)]
    rfl
  | succ k ih =>
    intro hk1
    have hlt : k < seq.length := by omega
    refine ⟨fun h => absurd h (by omega), fun _ => ?_⟩
    rw [Guest.gRowAt_succ _ _ _ hlt,
      Guest.gStep_getD_zero _ _ _ (by simpa [HMM.new] using hL)]
    have haa := aa_to_index_lt (seq.getD k 0)
    show 0 < max
      (((Guest.gRowAt (HMM.new L) seq k).getD 0 Guest.dG).m *
        getT (HMM.new L).transitions.match_to_insert 0 *
        getE (HMM.new L).emissions.insert_emissions 0 (aa_to_index (seq.getD k 0)))
      (((Guest.gRowAt (HMM.new L) seq k).getD 0 Guest.dG).ins *
        getT (HMM.new L).transitions.insert_to_insert 0 *
        getE (HMM.new L).emissions.insert_emissions 0 (aa_to_index (seq.getD k 0)))
    rw [new_getT_m2i (by omega), new_getT_i2i (by omega), new_getE_insert (by omega) haa]
    rcases Nat.eq_zero_or_pos k with rfl | hk0
    · rw [(ih (by omega)).1 rfl]
      refine lt_max_iff.mpr (Or.inl ?_)
      norm_num
    · refine lt_max_iff.mpr (Or.inr ?_)
      exact mul_pos (mul_pos ((ih (by omega)).2 hk0) (by norm_num)) (by norm_num)

/-- On a fixed-constant model of length at least 2, the rolling decoder
gives every nonempty sequence a strictly positive probability-domain
score: model column 1's match cell in the last row is reachable through
column-0 inserts. -/
theorem new_guest_pos (L : Nat) (hL : 2 ≤ L) (seq : List Nat) (hs : seq ≠ []) :
    0 < Guest.viterbiScore (HMM.new L) seq := by
  obtain ⟨n, hn⟩ : ∃ n, seq.length = n + 1 := by
    cases seq with
    | nil => exact absurd rfl hs
    | cons a t => exact ⟨t.length, rfl⟩
  have hL1 : (HMM.new L).length = L := rfl
  unfold Guest.viterbiScore
  rw [hn, Guest.gRowAt_succ _ _ _ (by omega)]
  have haa := aa_to_index_lt (seq.getD n 0)
  have hlen : (Guest.gStep (HMM.new L) (aa_to_index (seq.getD n 0))
      (Guest.gRowAt (HMM.new L) seq n)).length = L := by
    rw [Guest.gStep_length, hL1]
  have hmem : (Guest.gStep (HMM.new L) (aa_to_index (seq.getD n 0))
        (Guest.gRowAt (HMM.new L) seq n)).getD 1 Guest.dG ∈
      Guest.gStep (HMM.new L) (aa_to_index (seq.getD n 0))
        (Guest.gRowAt (HMM.new L) seq n) := by
    apply getD_mem
    rw [hlen]
    omega
  refine lt_of_lt_of_le ?_ (Guest.bestScore_ge_mem hmem)
  rw [show (1 : Nat) = 0 + 1 from rfl,
    Guest.gStep_getD_succ _ _ _ 0 (by rw [hL1]; omega)]
  show 0 < max (max
    (((Guest.gRowAt (HMM.new L) seq n).getD 0 Guest.dG).m *
      getT (HMM.new L).transitions.match_to_match 0 *
      getE (HMM.new L).emissions.match_emissions 1 (aa_to_index (seq.getD n 0)))
    (((Guest.gRowAt (HMM.new L) seq n).getD 0 Guest.dG).ins *
      getT (HMM.new L).transitions.insert_to_match 0 *
      getE (HMM.new L).emissions.match_emissions 1 (aa_to_index (seq.getD n 0))))
    (((Guest.gRowAt (HMM.new L) seq n).getD 0 Guest.dG).del *
      getT (HMM.new L).transitions.delete_to_match 0 *
      getE (HMM.new L).emissions.match_emissions 1 (aa_to_index (seq.getD n 0)))
  have hem := new_getE_match_pos (by omega : 1 < L) haa
  rw [new_getT_m2m (by omega), new_getT_i2m (by omega)]
  rcases Nat.eq_zero_or_pos n with rfl | hn0
  · rw [(new_col0 L (by omega) seq 0 (by omega)).1 rfl]
    refine lt_max_iff.mpr (Or.inl (lt_max_iff.mpr (Or.inl ?_)))
    nlinarith
  · refine lt_max_iff.mpr (Or.inl (lt_max_iff.mpr (Or.inr ?_)))
    have hins := (new_col0 L (by omega) seq n (by omega)).2 hn0
    nlinarith

/-- On a model of length exactly 1 both decoders score every nonempty
sequence `-∞` (probability 0): the final scan only inspects match cells,
and the single match column is never written for rows `i ≥ 1` because the
match recurrence requires `j > 0`. -/
theorem len1_scores (hmm : HMM) (h1 : hmm.length = 1) (seq : List Nat) (hs : seq ≠ []) :
    Baseline.viterbiScore hmm seq = 0 ∧ Guest.viterbiScore hmm seq = 0 := by
  obtain ⟨n, hn⟩ : ∃ n, seq.length = n + 1 := by
    cases seq with
    | nil => exact absurd rfl hs
    | cons a t => exact ⟨t.length, rfl⟩
  constructor
  · unfold Baseline.viterbiScore
    rw [hn, Baseline.bRowAt_succ _ _ _ (by omega)]
    have hlen : (Baseline.bStep hmm (aa_to_index (seq.getD n 0))
        (Baseline.bRowAt hmm seq n)).length = 1 := by
      rw [Baseline.bStep_length, h1]
    obtain ⟨c, hc⟩ := List.length_eq_one.mp hlen
    have hc0 : c = (Baseline.bStep hmm (aa_to_index (seq.getD n 0))
        (Baseline.bRowAt hmm seq n)).getD 0 Baseline.dB := by
      rw [hc]; rfl
    have hm : c.m.1 = 0 := by
      rw [hc0, Baseline.bStep_getD_zero _ _ _ (by omega)]
      rfl
    rw [hc]
    unfold Baseline.bestScore
    rw [List.foldl_cons, List.foldl_nil]
    show (if _ > _ then _ else (0 : ℚ)) = 0
    rw [hm]
    norm_num
  · unfold Guest.viterbiScore
    rw [hn, Guest.gRowAt_succ _ _ _ (by omega)]
    have hlen : (Guest.gStep hmm (aa_to_index (seq.getD n 0))
        (Guest.gRowAt hmm seq n)).length = 1 := by
      rw [Guest.gStep_length, h1]
    obtain ⟨c, hc⟩ := List.length_eq_one.mp hlen
    have hc0 : c = (Guest.gStep hmm (aa_to_index (seq.getD n 0))
        (Guest.gRowAt hmm seq n)).getD 0 Guest.dG := by
      rw [hc]; rfl
    have hm : c.m = 0 := by
      rw [hc0, Guest.gStep_getD_zero _ _ _ (by omega)]
      rfl
    rw [hc]
    unfold Guest.bestScore
    rw [List.foldl_cons, List.foldl_nil]
    show (if _ > _ then _ else (0 : ℚ)) = 0
    rw [hm]
    norm_num

end Hmmer

namespace Hmmer

/-- The e-value transform `e_value = (-score).exp()` of `search_sequences`
(identical line in both source files), in the probability-domain
embedding: `exp (-s) = 1 / exp s`, so a probability-domain score `p`
yields `1 / p`, and a `-∞` log-space score (`p = 0`) yields `+∞`. -/
def e_value (p : ℚ) : WithTop ℚ := if p = 0 then ⊤ else ((p⁻¹ : ℚ) : WithTop ℚ)

/-- The `SearchResult` struct (identical in both source files); its
`e_value` field lives in `WithTop ℚ` because `exp (-(-∞)) = +∞`. -/
structure SearchResult where
  sequence_name : String
  score : ℚ
  e_value : WithTop ℚ
  alignment_start : Nat
  alignment_end : Nat
deriving DecidableEq

/-- The comparator passed to `results.sort_by`: `b.score.partial_cmp(&a.score)`
orders descending by score.  Probability-domain scores are never NaN, so
the baseline's `.unwrap()` and the guest's `.unwrap_or(Equal)` agree. -/
def resLE (a b : SearchResult) : Bool := decide (b.score ≤ a.score)

/-- Rust's slice `sort_by` is a stable sort; a stable sort's output is
uniquely determined by the comparator and the input order, so it is
embedded as `List.mergeSort`, which is stable. -/
def sortResults (l : List SearchResult) : List SearchResult := l.mergeSort resLE

theorem resLE_trans : ∀ (a b c : SearchResult),
    resLE a b = true → resLE b c = true → resLE a c = true := by
  intro a b c hab hbc
  simp only [resLE, decide_eq_true_eq] at *
  exact le_trans hbc hab

theorem resLE_total : ∀ (a b : SearchResult), (resLE a b || resLE b a) = true := by
  intro a b
  rcases le_total a.score b.score with h | h
  · simp [resLE, h]
  · simp [resLE, h]

theorem sortResults_length (l : List SearchResult) :
    (sortResults l).length = l.length :=
  List.length_mergeSort l

theorem sortResults_sorted (l : List SearchResult) :
    (sortResults l).Pairwise (fun a b => b.score ≤ a.score) := by
  have h := List.sorted_mergeSort resLE_trans resLE_total l
  exact h.imp (fun hab => by simpa [resLE, decide_eq_true_eq] using hab)

theorem sortResults_perm (l : List SearchResult) : (sortResults l).Perm l :=
  List.mergeSort_perm l resLE

/-- Stability of the sort: the results carrying any fixed score appear in
the output in exactly the order they appear in the input. -/
theorem sortResults_stable (l : List SearchResult) (q : ℚ) :
    (sortResults l).filter (fun r => decide (r.score = q)) =
      l.filter (fun r => decide (r.score = q)) := by
  have hpair : (l.filter (fun r => decide (r.score = q))).Pairwise
      (fun a b => resLE a b = true) := by
    apply List.pairwise_of_forall_mem_list
    intro a ha b hb
    have ha' := (List.mem_filter.mp ha).2
    have hb' := (List.mem_filter.mp hb).2
    simp only [decide_eq_true_eq] at ha' hb'
    simp [resLE, ha', hb']
  have hsub : (l.filter (fun r => decide (r.score = q))).Sublist (sortResults l) :=
    List.mergeSort_stable resLE_trans resLE_total hpair (List.filter_sublist l)
  have hsub2 : (l.filter (fun r => decide (r.score = q))).Sublist
      ((sortResults l).filter (fun r => decide (r.score = q))) := by
    have := List.Sublist.filter (fun r => decide (r.score = q)) hsub
    rw [List.filter_filter] at this
    simpa using this
  have hlen : ((sortResults l).filter (fun r => decide (r.score = q))).length =
      (l.filter (fun r => decide (r.score = q))).length :=
    ((sortResults_perm l).filter _).length_eq
  exact (hsub2.eq_of_length hlen.symm).symm

theorem e_value_antitone {p q : ℚ} (hp : 0 ≤ p) (h : p ≤ q) :
    e_value q ≤ e_value p := by
  unfold e_value
  split_ifs with hq hp0 hp0
  · exact le_refl ⊤
  · exact absurd (le_antisymm (hq ▸ h) (hq ▸ hp)) hp0
  · exact le_top
  · have hppos : 0 < p := lt_of_le_of_ne hp (Ne.symm hp0)
    exact WithTop.coe_le_coe.mpr (inv_anti₀ hppos h)

namespace Baseline

/-- One loop iteration of `search_sequences` in `hmmer_baseline.rs`
(lines 273-283): score the sequence, derive the e-value, record the full
sequence extent as the alignment span. -/
def mkResult (hmm : HMM) (s : Sequence) : SearchResult :=
  { sequence_name := s.name
    score := viterbiScore hmm s.data
    e_value := Hmmer.e_value (viterbiScore hmm s.data)
    alignment_start := 0
    alignment_end := s.data.length }

/-- The `search_sequences` function of `hmmer_baseline.rs`: score every
sequence, then stable-sort descending by score.  A zero-length model
makes the first `viterbi` call panic (`none`), which can only happen when
there is at least one sequence. -/
def search_sequences (hmm : HMM) (seqs : List Sequence) : Option (List SearchResult) :=
  if hmm.length = 0 ∧ seqs ≠ [] then none
  else some (sortResults (seqs.map (mkResult hmm)))

end Baseline

namespace Guest

/-- One loop iteration of the guest `search_sequences` (lines 215-225). -/
def mkResult (hmm : HMM) (s : Sequence) : SearchResult :=
  { sequence_name := s.name
    score := viterbiScore hmm s.data
    e_value := Hmmer.e_value (viterbiScore hmm s.data)
    alignment_start := 0
    alignment_end := s.data.length }

/-- The guest `search_sequences` (lines 212-235). -/
def search_sequences (hmm : HMM) (seqs : List Sequence) : Option (List SearchResult) :=
  if hmm.length = 0 ∧ seqs ≠ [] then none
  else some (sortResults (seqs.map (mkResult hmm)))

end Guest

theorem gViterbiScore_nonneg (hmm : HMM) (seq : List Nat) :
    0 ≤ Guest.viterbiScore hmm seq :=
  Guest.bestScore_nonneg _

theorem bViterbiScore_nonneg (hmm : HMM) (seq : List Nat) :
    0 ≤ Baseline.viterbiScore hmm seq := by
  unfold Baseline.viterbiScore
  rw [Baseline.bestScore_eq_proj]
  exact Guest.bestScore_nonneg _

end Hmmer

namespace Hmmer

/-- The same-row delete recurrence that the full-table decoder's `i = 0`
pass implements on row 0: `D[0][0] = -∞` and, for `j ≥ 1`,
`D[0][j] = max(M[0][j-1] + log m2d[j-1], D[0][j-1] + log d2d[j-1])` with
`M[0][0] = 0` and `M[0][j] = -∞` otherwise (probability domain shown). -/
def D0chain (hmm : HMM) : Nat → ℚ
  | 0 => 0
  | j + 1 => max ((if j = 0 then (1 : ℚ) else 0) * getT hmm.transitions.match_to_delete j)
      (D0chain hmm j * getT hmm.transitions.delete_to_delete j)

/-- Row 0 of the full-table decoder after its `i = 0` pass: match score 1
at column 0 and `-∞` (0) elsewhere, insert scores all `-∞`, and delete
scores given by the delete chain — which is, in general, not `-∞`. -/
theorem bRow0_char (hmm : HMM) : ∀ j, j < hmm.length →
    ((Baseline.bRow0 hmm).getD j Baseline.dB).m.1 = (if j = 0 then 1 else 0) ∧
    ((Baseline.bRow0 hmm).getD j Baseline.dB).ins.1 = 0 ∧
    ((Baseline.bRow0 hmm).getD j Baseline.dB).del.1 = D0chain hmm j := by
  intro j
  induction j with
  | zero =>
    intro h
    rw [Baseline.bRow0_getD_zero hmm h]
    exact ⟨rfl, rfl, rfl⟩
  | succ k ih =>
    intro h
    have hk := ih (by omega)
    rw [Baseline.bRow0_getD_succ hmm k h]
    refine ⟨rfl, rfl, ?_⟩
    show (if k + 1 = 0 then ((0 : ℚ), State.Match) else Baseline.selMD _ _).1 = _
    rw [if_neg (Nat.succ_ne_zero k), Baseline.selMD_fst, hk.1, hk.2.2]
    rfl

/-- Column-0 match cells of all rows `i ≥ 1` keep their initialization
`-∞` in the full-table decoder: the match recurrence is guarded by
`j > 0`. -/
theorem bRowAt_succ_col0_m (hmm : HMM) (seq : List Nat) (i : Nat)
    (hi : i < seq.length) (hL : 0 < hmm.length) :
    ((Baseline.bRowAt hmm seq (i + 1)).getD 0 Baseline.dB).m.1 = 0 := by
  rw [Baseline.bRowAt_succ hmm seq i hi, Baseline.bStep_getD_zero _ _ _ hL]
  rfl

/-- The rolling decoder's initial row really is all `-∞` except the
column-0 match slot. -/
theorem gInit_char (hmm : HMM) (j : Nat) (h : j < hmm.length) :
    ((Guest.gInit hmm).getD j Guest.dG).m = (if j = 0 then 1 else 0) ∧
    ((Guest.gInit hmm).getD j Guest.dG).ins = 0 ∧
    ((Guest.gInit hmm).getD j Guest.dG).del = 0 := by
  rw [Guest.gInit_getD hmm j h]
  exact ⟨rfl, rfl, rfl⟩

/-! Tie-break selector characterizations: each nested `if` chain of the
full-table decoder records the predecessor of highest precedence
(`Match` over `Insert` over `Delete`) among those attaining the running
maximum. -/

theorem selMatch3_snd_m {a b c : ℚ} (h1 : b ≤ a) (h2 : c ≤ a) :
    (Baseline.selMatch3 a b c).2 = State.Match := by
  unfold Baseline.selMatch3
  rw [if_pos ⟨h1, h2⟩]

theorem selMatch3_snd_i {a b c : ℚ} (h1 : a < b) (h2 : c ≤ b) :
    (Baseline.selMatch3 a b c).2 = State.Insert := by
  unfold Baseline.selMatch3
  rw [if_neg (by rintro ⟨hab, _⟩; exact absurd h1 (not_lt.mpr hab)), if_pos h2]

theorem selMatch3_snd_d {a b c : ℚ} (h1 : a < c) (h2 : b < c) :
    (Baseline.selMatch3 a b c).2 = State.Delete := by
  unfold Baseline.selMatch3
  rw [if_neg (by rintro ⟨_, hac⟩; exact absurd h1 (not_lt.mpr hac)),
    if_neg (not_le.mpr h2)]

theorem selMI_snd_m {a b : ℚ} (h : b ≤ a) : (Baseline.selMI a b).2 = State.Match := by
  unfold Baseline.selMI
  rw [if_pos h]

theorem selMI_snd_i {a b : ℚ} (h : a < b) : (Baseline.selMI a b).2 = State.Insert := by
  unfold Baseline.selMI
  rw [if_neg (not_le.mpr h)]

theorem selMD_snd_m {a b : ℚ} (h : b ≤ a) : (Baseline.selMD a b).2 = State.Match := by
  unfold Baseline.selMD
  rw [if_pos h]

theorem selMD_snd_d {a b : ℚ} (h : a < b) : (Baseline.selMD a b).2 = State.Delete := by
  unfold Baseline.selMD
  rw [if_neg (not_le.mpr h)]

end Hmmer

namespace Hmmer

theorem mem_sort_map {f : Sequence → SearchResult} {seqs : List Sequence}
    {r : SearchResult} (h : r ∈ sortResults (seqs.map f)) : ∃ s ∈ seqs, f s = r :=
  List.mem_map.mp ((sortResults_perm (seqs.map f)).mem_iff.mp h)

end Hmmer

/-! Claim theorems. -/

/-- C1, counterexample: the full-table and rolling two-row decoders do
not compute the same score for every model of length ≥ 1 and every
sequence.  On this length-3 model (all probabilities in `(0, 1]`) and the
single-residue sequence `"A"` (byte 65), the full-table decoder reaches
match column 2 through its row-0 delete chain (score `0.9 · 0.9 · 0.9`,
i.e. `log 0.729`) while the rolling decoder, whose row 0 has no delete
chain, only reaches match column 1 (score `0.1 · 0.1`, i.e. `log 0.01`):
the two scores differ. -/
def cxModel : Hmmer.HMM :=
  { length := 3
    transitions :=
      { match_to_match := [0.1, 0.5, 0.5]
        match_to_insert := [0.1, 0.1, 0.1]
        match_to_delete := [0.9, 0.1, 0.1]
        insert_to_match := [0.5, 0.5, 0.5]
        insert_to_insert := [0.5, 0.5, 0.5]
        delete_to_match := [0.5, 0.9, 0.5]
        delete_to_delete := [0.5, 0.5, 0.5] }
    emissions :=
      { match_emissions :=
          [List.replicate 20 0.05, List.replicate 20 0.1, List.replicate 20 0.9]
        insert_emissions := List.replicate 3 (List.replicate 20 0.05) } }

/-- C1 is false as stated: an explicit length-3 model and one-residue
sequence on which the two decoders return different scores
(`log 0.729` versus `log 0.01`, probability domain shown). -/
theorem rolling_vs_full_counterexample :
    cxModel.length = 3 ∧
    Hmmer.Baseline.viterbi cxModel [65] = some (729 / 1000) ∧
    Hmmer.Guest.viterbi cxModel [65] = some (1 / 100) ∧
    Hmmer.Baseline.viterbi cxModel [65] ≠ Hmmer.Guest.viterbi cxModel [65] := by
  refine ⟨rfl, ?_, ?_, ?_⟩
  · with_unfolding_all decide
  · with_unfolding_all decide
  · with_unfolding_all decide

/-- C1, amended: the two decoders implement the same per-row recurrence
(the row step functions agree after forgetting traceback tags), but their
initial rows differ — the full-table decoder's `i = 0` pass seeds a row-0
delete chain the rolling decoder omits.  Consequently for every model
with nonnegative parameters the rolling decoder's score is at most the
full-table decoder's, with equality on the empty sequence (both return
`log 1 = 0.0`); on nonempty sequences the scores can differ (see the
counterexample). -/
theorem rolling_le_full_table (hmm : Hmmer.HMM) (hn : hmm.Nonneg) (seq : List Nat) :
    (∀ (aa : Nat) (prev : List Hmmer.Baseline.BCol),
      (Hmmer.Baseline.bStep hmm aa prev).map Hmmer.projB =
        Hmmer.Guest.gStep hmm aa (prev.map Hmmer.projB)) ∧
    Hmmer.Guest.viterbiScore hmm seq ≤ Hmmer.Baseline.viterbiScore hmm seq ∧
    Hmmer.Guest.viterbiScore hmm [] = Hmmer.Baseline.viterbiScore hmm [] := by
  refine ⟨fun aa prev => Hmmer.bStep_proj hmm aa prev,
    Hmmer.viterbiScore_le hmm hn seq, ?_⟩
  rcases Nat.eq_zero_or_pos hmm.length with h0 | hpos
  · have hg : Hmmer.Guest.gInit hmm = [] := by
      unfold Hmmer.Guest.gInit
      rw [h0]
      rfl
    have hb : Hmmer.Baseline.bRow0 hmm = [] := by
      unfold Hmmer.Baseline.bRow0
      rw [h0]
      rfl
    show Hmmer.Guest.bestScore (Hmmer.Guest.gInit hmm) =
      Hmmer.Baseline.bestScore (Hmmer.Baseline.bRow0 hmm)
    rw [hg, hb]
    rfl
  · rw [(Hmmer.viterbiScore_nil hmm hpos).1, (Hmmer.viterbiScore_nil hmm hpos).2]

/-- C1 witness at the length-3 fixed-constant model and sequence `"A"`. -/
theorem rolling_le_full_table_witness :
    Hmmer.Guest.viterbiScore (Hmmer.HMM.new 3) [65] ≤
      Hmmer.Baseline.viterbiScore (Hmmer.HMM.new 3) [65] :=
  (rolling_le_full_table (Hmmer.HMM.new 3) (Hmmer.HMM.new_nonneg 3) [65]).2.1

/-- C2 is false as stated: the fixed-constant builder at length 1 (a
model with all parameters strictly positive and length ≥ 1) sends the
one-residue sequence `"A"` to probability 0, i.e. a `-∞` log-space
score, in both decoders — the final scan only inspects match cells, and
no match cell with `j > 0` exists in a length-1 model. -/
theorem new_model_neg_inf_counterexample :
    (Hmmer.HMM.new 1).length = 1 ∧
    Hmmer.Baseline.viterbi (Hmmer.HMM.new 1) [65] = some 0 ∧
    Hmmer.Guest.viterbi (Hmmer.HMM.new 1) [65] = some 0 := by
  refine ⟨rfl, ?_, ?_⟩
  · with_unfolding_all decide
  · with_unfolding_all decide

/-- C2, amended: for every model built by the fixed-constant builder with
length ≥ 2, viterbi never returns `-∞` (the probability-domain score is
strictly positive) in either decoder and never fails; for length exactly
1, the empty sequence still scores `0.0` but every nonempty sequence
scores `-∞` (probability 0). -/
theorem new_model_score_finite (L : Nat) (seq : List Nat) :
    (2 ≤ L →
      Hmmer.Baseline.viterbi (Hmmer.HMM.new L) seq =
        some (Hmmer.Baseline.viterbiScore (Hmmer.HMM.new L) seq) ∧
      0 < Hmmer.Baseline.viterbiScore (Hmmer.HMM.new L) seq ∧
      Hmmer.Guest.viterbi (Hmmer.HMM.new L) seq =
        some (Hmmer.Guest.viterbiScore (Hmmer.HMM.new L) seq) ∧
      0 < Hmmer.Guest.viterbiScore (Hmmer.HMM.new L) seq) ∧
    (L = 1 → seq ≠ [] →
      Hmmer.Baseline.viterbi (Hmmer.HMM.new L) seq = some 0 ∧
      Hmmer.Guest.viterbi (Hmmer.HMM.new L) seq = some 0) := by
  constructor
  · intro hL
    have hlen : (Hmmer.HMM.new L).length = L := rfl
    have hg : 0 < Hmmer.Guest.viterbiScore (Hmmer.HMM.new L) seq := by
      cases seq with
      | nil => rw [(Hmmer.viterbiScore_nil _ (by rw [hlen]; omega)).2]; norm_num
      | cons a t => exact Hmmer.new_guest_pos L hL (a :: t) (by simp)
    have hb : 0 < Hmmer.Baseline.viterbiScore (Hmmer.HMM.new L) seq :=
      lt_of_lt_of_le hg (Hmmer.viterbiScore_le _ (Hmmer.HMM.new_nonneg L) seq)
    refine ⟨?_, hb, ?_, hg⟩
    · unfold Hmmer.Baseline.viterbi
      rw [if_neg (by rw [hlen]; omega)]
    · unfold Hmmer.Guest.viterbi
      rw [if_neg (by rw [hlen]; omega)]
  · intro hL hs
    subst hL
    have h := Hmmer.len1_scores (Hmmer.HMM.new 1) rfl seq hs
    constructor
    · unfold Hmmer.Baseline.viterbi
      rw [if_neg (by intro h0; exact absurd h0 (by decide)), h.1]
    · unfold Hmmer.Guest.viterbi
      rw [if_neg (by intro h0; exact absurd h0 (by decide)), h.2]

/-- C2 witness at length 2 and sequence `"A"`. -/
theorem new_model_score_finite_witness :
    0 < Hmmer.Baseline.viterbiScore (Hmmer.HMM.new 2) [65] ∧
    0 < Hmmer.Guest.viterbiScore (Hmmer.HMM.new 2) [65] :=
  ⟨((new_model_score_finite 2 [65]).1 (by decide)).2.1,
   ((new_model_score_finite 2 [65]).1 (by decide)).2.2.2⟩

/-- C3 is false as stated: model construction cannot fail — `HMM::new`
returns `Self` unconditionally, so at length 0 it succeeds and yields the
model with empty parameter vectors rather than an `InvalidModelLength`
error (no such error kind exists anywhere in the code). -/
theorem hmm_new_zero_counterexample :
    Hmmer.HMM.new 0 =
      { length := 0
        transitions := ⟨[], [], [], [], [], [], []⟩
        emissions := ⟨[], []⟩ } := rfl

/-- C3, amended: construction never fails; for every length (0 included)
it produces a model whose seven transition arrays each have exactly
`length` entries and whose two emission tables each have exactly `length`
rows of 20 columns. -/
theorem hmm_new_shape (L : Nat) :
    (Hmmer.HMM.new L).length = L ∧
    (Hmmer.HMM.new L).transitions.match_to_match.length = L ∧
    (Hmmer.HMM.new L).transitions.match_to_insert.length = L ∧
    (Hmmer.HMM.new L).transitions.match_to_delete.length = L ∧
    (Hmmer.HMM.new L).transitions.insert_to_match.length = L ∧
    (Hmmer.HMM.new L).transitions.insert_to_insert.length = L ∧
    (Hmmer.HMM.new L).transitions.delete_to_match.length = L ∧
    (Hmmer.HMM.new L).transitions.delete_to_delete.length = L ∧
    (Hmmer.HMM.new L).emissions.match_emissions.length = L ∧
    (Hmmer.HMM.new L).emissions.insert_emissions.length = L ∧
    (∀ r ∈ (Hmmer.HMM.new L).emissions.match_emissions, r.length = 20) ∧
    (∀ r ∈ (Hmmer.HMM.new L).emissions.insert_emissions, r.length = 20) := by
  refine ⟨rfl, ?_, ?_, ?_, ?_, ?_, ?_, ?_, ?_, ?_, ?_, ?_⟩
  · simp [Hmmer.HMM.new]
  · simp [Hmmer.HMM.new]
  · simp [Hmmer.HMM.new]
  · simp [Hmmer.HMM.new]
  · simp [Hmmer.HMM.new]
  · simp [Hmmer.HMM.new]
  · simp [Hmmer.HMM.new]
  · simp [Hmmer.HMM.new]
  · simp [Hmmer.HMM.new]
  · intro r hr
    simp only [Hmmer.HMM.new, List.mem_map, List.mem_range] at hr
    obtain ⟨i, _, rfl⟩ := hr
    simp [Hmmer.AA_COUNT]
  · intro r hr
    rw [List.eq_of_mem_replicate hr]
    simp [Hmmer.AA_COUNT]

/-- C3 witness: shape facts instantiated at length 2. -/
theorem hmm_new_shape_witness :
    (Hmmer.HMM.new 2).emissions.match_emissions.length = 2 ∧
    ((Hmmer.HMM.new 2).emissions.match_emissions.getD 0 []).length = 20 :=
  ⟨(hmm_new_shape 2).2.2.2.2.2.2.2.2.1,
   (hmm_new_shape 2).2.2.2.2.2.2.2.2.2.2.1 _
     (Hmmer.getD_mem _ 0 [] (by rw [(hmm_new_shape 2).2.2.2.2.2.2.2.2.1]; omega))⟩

/-- C5: for every model with length ≥ 1 both decoders map the empty
sequence to the start-state score `0.0` (probability 1): never `-∞`,
never a panic. -/
theorem empty_sequence_score (hmm : Hmmer.HMM) (h : 1 ≤ hmm.length) :
    Hmmer.Baseline.viterbi hmm [] = some 1 ∧ Hmmer.Guest.viterbi hmm [] = some 1 := by
  constructor
  · unfold Hmmer.Baseline.viterbi
    rw [if_neg (by omega), (Hmmer.viterbiScore_nil hmm (by omega)).1]
  · unfold Hmmer.Guest.viterbi
    rw [if_neg (by omega), (Hmmer.viterbiScore_nil hmm (by omega)).2]

/-- C5 witness at the length-5 fixed-constant model. -/
theorem empty_sequence_score_witness :
    Hmmer.Baseline.viterbi (Hmmer.HMM.new 5) [] = some 1 ∧
    Hmmer.Guest.viterbi (Hmmer.HMM.new 5) [] = some 1 :=
  empty_sequence_score (Hmmer.HMM.new 5) (by decide)

/-- C10: on a model of length 0 (which construction permits) every call
to `viterbi` — the empty sequence included — performs the initial
`dp[0][0] = 0.0` (resp. `prev_scores[0] = 0.0`) store into a zero-length
row and panics (embedded as `none`); for length ≥ 1 the store is in range
and `viterbi` totally returns a score. -/
theorem viterbi_len_zero_panics (hmm : Hmmer.HMM) (seq : List Nat) :
    (hmm.length = 0 →
      Hmmer.Baseline.viterbi hmm seq = none ∧ Hmmer.Guest.viterbi hmm seq = none) ∧
    (1 ≤ hmm.length →
      (Hmmer.Baseline.viterbi hmm seq).isSome = true ∧
      (Hmmer.Guest.viterbi hmm seq).isSome = true) := by
  constructor
  · intro h0
    unfold Hmmer.Baseline.viterbi Hmmer.Guest.viterbi
    rw [if_pos h0, if_pos h0]
    exact ⟨rfl, rfl⟩
  · intro h1
    unfold Hmmer.Baseline.viterbi Hmmer.Guest.viterbi
    rw [if_neg (by omega), if_neg (by omega)]
    exact ⟨rfl, rfl⟩

/-- C10 witness: the length-0 model panics on the empty sequence; the
length-1 model does not. -/
theorem viterbi_len_zero_panics_witness :
    (Hmmer.Baseline.viterbi (Hmmer.HMM.new 0) [] = none ∧
      Hmmer.Guest.viterbi (Hmmer.HMM.new 0) [] = none) ∧
    (Hmmer.Baseline.viterbi (Hmmer.HMM.new 1) [] ).isSome = true :=
  ⟨(viterbi_len_zero_panics (Hmmer.HMM.new 0) []).1 rfl,
   ((viterbi_len_zero_panics (Hmmer.HMM.new 1) []).2 (by decide)).1⟩

/-- C4 is false as stated: after the row-0 pass of the full-table decoder
on the length-2 fixed-constant model, the delete cell of column 1 in row
0 holds `log 0.1` (probability `1/10`), not `-∞`: the `i = 0` iteration
of the fill loop runs the delete branch and seeds the delete chain from
`Match[0][0]`. -/
theorem base_case_counterexample :
    ((Hmmer.Baseline.bRowAt (Hmmer.HMM.new 2) [] 0).getD 1 Hmmer.Baseline.dB).del.1 = 1 / 10 ∧
    ((Hmmer.Baseline.bRowAt (Hmmer.HMM.new 2) [] 0).getD 1 Hmmer.Baseline.dB).del.1 ≠ 0 := by
  constructor
  · with_unfolding_all decide
  · with_unfolding_all decide

/-- C4, amended: in both decoders `Match[0][0] = 0.0` (probability 1) and
every other row-0 Match and Insert entry is `-∞`; in the rolling decoder
the row-0 Delete entries are also `-∞`, but in the full-table decoder the
row-0 pass fills `Delete[0][j]` for `j ≥ 1` by the same-row delete
recurrence (the delete chain), which is in general finite; column-0 Match
entries of every row `i ≥ 1` do remain `-∞`. -/
theorem base_case_characterization (hmm : Hmmer.HMM) :
    (∀ j, j < hmm.length →
      ((Hmmer.Baseline.bRow0 hmm).getD j Hmmer.Baseline.dB).m.1 = (if j = 0 then 1 else 0) ∧
      ((Hmmer.Baseline.bRow0 hmm).getD j Hmmer.Baseline.dB).ins.1 = 0 ∧
      ((Hmmer.Baseline.bRow0 hmm).getD j Hmmer.Baseline.dB).del.1 = Hmmer.D0chain hmm j ∧
      ((Hmmer.Guest.gInit hmm).getD j Hmmer.Guest.dG).m = (if j = 0 then 1 else 0) ∧
      ((Hmmer.Guest.gInit hmm).getD j Hmmer.Guest.dG).ins = 0 ∧
      ((Hmmer.Guest.gInit hmm).getD j Hmmer.Guest.dG).del = 0) ∧
    (∀ (seq : List Nat) (i : Nat), i < seq.length → 0 < hmm.length →
      ((Hmmer.Baseline.bRowAt hmm seq (i + 1)).getD 0 Hmmer.Baseline.dB).m.1 = 0) := by
  constructor
  · intro j hj
    obtain ⟨h1, h2, h3⟩ := Hmmer.bRow0_char hmm j hj
    obtain ⟨g1, g2, g3⟩ := Hmmer.gInit_char hmm j hj
    exact ⟨h1, h2, h3, g1, g2, g3⟩
  · intro seq i hi hL
    exact Hmmer.bRowAt_succ_col0_m hmm seq i hi hL

/-- C4 witness at the length-2 fixed-constant model and column 1. -/
theorem base_case_characterization_witness :
    ((Hmmer.Baseline.bRow0 (Hmmer.HMM.new 2)).getD 1 Hmmer.Baseline.dB).del.1 =
      Hmmer.D0chain (Hmmer.HMM.new 2) 1 :=
  (((base_case_characterization (Hmmer.HMM.new 2)).1 1 (by decide)).2.2.1)

/-- C6: for every model with length ≥ 1 and every batch, `search_sequences`
succeeds and returns one result per input sequence, sorted by score in
non-increasing order, and stably: results carrying any fixed score keep
the order in which their sequences were presented.  Both the full-table
and the rolling variants. -/
theorem search_output (hmm : Hmmer.HMM) (hL : 1 ≤ hmm.length)
    (seqs : List Hmmer.Sequence) :
    Hmmer.Baseline.search_sequences hmm seqs =
      some (Hmmer.sortResults (seqs.map (Hmmer.Baseline.mkResult hmm))) ∧
    (Hmmer.sortResults (seqs.map (Hmmer.Baseline.mkResult hmm))).length = seqs.length ∧
    (Hmmer.sortResults (seqs.map (Hmmer.Baseline.mkResult hmm))).Pairwise
      (fun a b => b.score ≤ a.score) ∧
    (∀ q : ℚ, (Hmmer.sortResults (seqs.map (Hmmer.Baseline.mkResult hmm))).filter
        (fun r => decide (r.score = q)) =
      (seqs.map (Hmmer.Baseline.mkResult hmm)).filter (fun r => decide (r.score = q))) ∧
    Hmmer.Guest.search_sequences hmm seqs =
      some (Hmmer.sortResults (seqs.map (Hmmer.Guest.mkResult hmm))) ∧
    (Hmmer.sortResults (seqs.map (Hmmer.Guest.mkResult hmm))).length = seqs.length ∧
    (Hmmer.sortResults (seqs.map (Hmmer.Guest.mkResult hmm))).Pairwise
      (fun a b => b.score ≤ a.score) ∧
    (∀ q : ℚ, (Hmmer.sortResults (seqs.map (Hmmer.Guest.mkResult hmm))).filter
        (fun r => decide (r.score = q)) =
      (seqs.map (Hmmer.Guest.mkResult hmm)).filter (fun r => decide (r.score = q))) := by
  refine ⟨?_, ?_, ?_, ?_, ?_, ?_, ?_, ?_⟩
  · unfold Hmmer.Baseline.search_sequences
    rw [if_neg (by rintro ⟨h0, _⟩; omega)]
  · rw [Hmmer.sortResults_length, List.length_map]
  · exact Hmmer.sortResults_sorted _
  · intro q
    exact Hmmer.sortResults_stable _ q
  · unfold Hmmer.Guest.search_sequences
    rw [if_neg (by rintro ⟨h0, _⟩; omega)]
  · rw [Hmmer.sortResults_length, List.length_map]
  · exact Hmmer.sortResults_sorted _
  · intro q
    exact Hmmer.sortResults_stable _ q

/-- C6 witness at the length-1 fixed-constant model and one sequence. -/
theorem search_output_witness :
    (Hmmer.sortResults
      (([⟨"s", [65]⟩] : List Hmmer.Sequence).map
        (Hmmer.Baseline.mkResult (Hmmer.HMM.new 1)))).length = 1 :=
  (search_output (Hmmer.HMM.new 1) (by decide) [⟨"s", [65]⟩]).2.1

/-- C7: every search result is built from its input sequence with
`e_value = exp (-score)` (in the probability domain: `+∞` when the score
is probability 0, the reciprocal otherwise) and span `[0, data.length)`;
and since output scores are non-increasing, output e-values are
non-decreasing — with no distinctness assumption needed. -/
theorem result_fields_evalues (hmm : Hmmer.HMM) (seqs : List Hmmer.Sequence) :
    (∀ r ∈ Hmmer.sortResults (seqs.map (Hmmer.Baseline.mkResult hmm)), ∃ s ∈ seqs,
      r.sequence_name = s.name ∧
      r.score = Hmmer.Baseline.viterbiScore hmm s.data ∧
      r.e_value = Hmmer.e_value r.score ∧
      r.alignment_start = 0 ∧ r.alignment_end = s.data.length) ∧
    (Hmmer.sortResults (seqs.map (Hmmer.Baseline.mkResult hmm))).Pairwise
      (fun a b => a.e_value ≤ b.e_value) ∧
    (∀ r ∈ Hmmer.sortResults (seqs.map (Hmmer.Guest.mkResult hmm)), ∃ s ∈ seqs,
      r.sequence_name = s.name ∧
      r.score = Hmmer.Guest.viterbiScore hmm s.data ∧
      r.e_value = Hmmer.e_value r.score ∧
      r.alignment_start = 0 ∧ r.alignment_end = s.data.length) ∧
    (Hmmer.sortResults (seqs.map (Hmmer.Guest.mkResult hmm))).Pairwise
      (fun a b => a.e_value ≤ b.e_value) := by
  refine ⟨?_, ?_, ?_, ?_⟩
  · intro r hr
    obtain ⟨s, hs, rfl⟩ := Hmmer.mem_sort_map hr
    exact ⟨s, hs, rfl, rfl, rfl, rfl, rfl⟩
  · refine List.Pairwise.imp_of_mem ?_ (Hmmer.sortResults_sorted _)
    intro a b ha hb hscore
    obtain ⟨sa, _, rfl⟩ := Hmmer.mem_sort_map ha
    obtain ⟨sb, _, rfl⟩ := Hmmer.mem_sort_map hb
    exact Hmmer.e_value_antitone (Hmmer.bViterbiScore_nonneg hmm sb.data) hscore
  · intro r hr
    obtain ⟨s, hs, rfl⟩ := Hmmer.mem_sort_map hr
    exact ⟨s, hs, rfl, rfl, rfl, rfl, rfl⟩
  · refine List.Pairwise.imp_of_mem ?_ (Hmmer.sortResults_sorted _)
    intro a b ha hb hscore
    obtain ⟨sa, _, rfl⟩ := Hmmer.mem_sort_map ha
    obtain ⟨sb, _, rfl⟩ := Hmmer.mem_sort_map hb
    exact Hmmer.e_value_antitone (Hmmer.gViterbiScore_nonneg hmm sb.data) hscore

/-- C7 witness: the membership characterization instantiated at the
length-1 fixed-constant model and one sequence. -/
theorem result_fields_evalues_witness :
    ∀ r ∈ Hmmer.sortResults
      (([⟨"s", [65]⟩] : List Hmmer.Sequence).map
        (Hmmer.Baseline.mkResult (Hmmer.HMM.new 1))),
      ∃ s ∈ ([⟨"s", [65]⟩] : List Hmmer.Sequence),
        r.sequence_name = s.name ∧
        r.score = Hmmer.Baseline.viterbiScore (Hmmer.HMM.new 1) s.data ∧
        r.e_value = Hmmer.e_value r.score ∧
        r.alignment_start = 0 ∧ r.alignment_end = s.data.length :=
  (result_fields_evalues (Hmmer.HMM.new 1) [⟨"s", [65]⟩]).1

/-- C8: the residue map sends each of the 20 alphabet symbols, upper or
lower case, to its unique index in `[0, 20)` (case folding first), and
every byte whose upper-casing is outside the alphabet to index 0. -/
theorem residue_mapping :
    (∀ b : Fin 256, Hmmer.aa_to_index b.1 < 20) ∧
    (∀ i : Fin 20, Hmmer.aa_to_index (Hmmer.AMINO_ACIDS.getD i.1 0) = i.1 ∧
      Hmmer.aa_to_index (Hmmer.AMINO_ACIDS.getD i.1 0 + 32) = i.1) ∧
    (∀ b : Fin 256, Hmmer.toAsciiUpper b.1 ∉ Hmmer.AMINO_ACIDS →
      Hmmer.aa_to_index b.1 = 0) := by
  refine ⟨?_, ?_, ?_⟩ <;> decide

/-- C8 witness: lowercase `'c'` (byte 99) maps to index 1, and the
out-of-alphabet byte `'B'` (66) maps to index 0. -/
theorem residue_mapping_witness :
    Hmmer.aa_to_index 99 = 1 ∧ Hmmer.aa_to_index 66 = 0 :=
  ⟨(residue_mapping.2.1 ⟨1, by decide⟩).2,
   residue_mapping.2.2 ⟨66, by decide⟩ (by decide)⟩

namespace Hmmer

theorem bCell_m_succ (hmm : HMM) (aa : Nat) (prev : List Baseline.BCol)
    (k : Nat) (cm cd : ℚ) :
    (Baseline.bCell hmm aa prev (k + 1) cm cd).m =
      Baseline.selMatch3
        ((prev.getD k Baseline.dB).m.1 * getT hmm.transitions.match_to_match k *
          getE hmm.emissions.match_emissions (k + 1) aa)
        ((prev.getD k Baseline.dB).ins.1 * getT hmm.transitions.insert_to_match k *
          getE hmm.emissions.match_emissions (k + 1) aa)
        ((prev.getD k Baseline.dB).del.1 * getT hmm.transitions.delete_to_match k *
          getE hmm.emissions.match_emissions (k + 1) aa) := rfl

theorem bCell_ins_any (hmm : HMM) (aa : Nat) (prev : List Baseline.BCol)
    (j : Nat) (cm cd : ℚ) :
    (Baseline.bCell hmm aa prev j cm cd).ins =
      Baseline.selMI
        ((prev.getD j Baseline.dB).m.1 * getT hmm.transitions.match_to_insert j *
          getE hmm.emissions.insert_emissions j aa)
        ((prev.getD j Baseline.dB).ins.1 * getT hmm.transitions.insert_to_insert j *
          getE hmm.emissions.insert_emissions j aa) := rfl

theorem bCell_del_succ (hmm : HMM) (aa : Nat) (prev : List Baseline.BCol)
    (k : Nat) (cm cd : ℚ) :
    (Baseline.bCell hmm aa prev (k + 1) cm cd).del =
      Baseline.selMD (cm * getT hmm.transitions.match_to_delete k)
        (cd * getT hmm.transitions.delete_to_delete k) := rfl

theorem b0Cell_del_succ (hmm : HMM) (k : Nat) (cm cd : ℚ) :
    (Baseline.b0Cell hmm (k + 1) cm cd).del =
      Baseline.selMD (cm * getT hmm.transitions.match_to_delete k)
        (cd * getT hmm.transitions.delete_to_delete k) := rfl

end Hmmer

/-- C9: in the full-table decoder, whenever predecessor candidates into a
DP cell tie, the recorded traceback predecessor follows the fixed
precedence `Match` over `Insert` over `Delete`: the match-cell chain
records `Match` whenever the match candidate attains the (inclusive)
maximum, `Insert` whenever the insert candidate beats match and weakly
beats delete, `Delete` only when it strictly beats both; the two-way
insert and delete cells record `Match` on ties; the same holds for the
row-0 delete chain. -/
theorem tie_break_precedence (hmm : Hmmer.HMM) (seq : List Nat) (i j : Nat)
    (hi : i < seq.length) (hj : j < hmm.length) :
    ∀ pm pi_ pd qm qi rm rd sm sd : ℚ,
    pm = ((Hmmer.Baseline.bRowAt hmm seq i).getD (j - 1) Hmmer.Baseline.dB).m.1 *
        Hmmer.getT hmm.transitions.match_to_match (j - 1) *
        Hmmer.getE hmm.emissions.match_emissions j (Hmmer.aa_to_index (seq.getD i 0)) →
    pi_ = ((Hmmer.Baseline.bRowAt hmm seq i).getD (j - 1) Hmmer.Baseline.dB).ins.1 *
        Hmmer.getT hmm.transitions.insert_to_match (j - 1) *
        Hmmer.getE hmm.emissions.match_emissions j (Hmmer.aa_to_index (seq.getD i 0)) →
    pd = ((Hmmer.Baseline.bRowAt hmm seq i).getD (j - 1) Hmmer.Baseline.dB).del.1 *
        Hmmer.getT hmm.transitions.delete_to_match (j - 1) *
        Hmmer.getE hmm.emissions.match_emissions j (Hmmer.aa_to_index (seq.getD i 0)) →
    qm = ((Hmmer.Baseline.bRowAt hmm seq i).getD j Hmmer.Baseline.dB).m.1 *
        Hmmer.getT hmm.transitions.match_to_insert j *
        Hmmer.getE hmm.emissions.insert_emissions j (Hmmer.aa_to_index (seq.getD i 0)) →
    qi = ((Hmmer.Baseline.bRowAt hmm seq i).getD j Hmmer.Baseline.dB).ins.1 *
        Hmmer.getT hmm.transitions.insert_to_insert j *
        Hmmer.getE hmm.emissions.insert_emissions j (Hmmer.aa_to_index (seq.getD i 0)) →
    rm = ((Hmmer.Baseline.bRowAt hmm seq (i + 1)).getD (j - 1) Hmmer.Baseline.dB).m.1 *
        Hmmer.getT hmm.transitions.match_to_delete (j - 1) →
    rd = ((Hmmer.Baseline.bRowAt hmm seq (i + 1)).getD (j - 1) Hmmer.Baseline.dB).del.1 *
        Hmmer.getT hmm.transitions.delete_to_delete (j - 1) →
    sm = ((Hmmer.Baseline.bRow0 hmm).getD (j - 1) Hmmer.Baseline.dB).m.1 *
        Hmmer.getT hmm.transitions.match_to_delete (j - 1) →
    sd = ((Hmmer.Baseline.bRow0 hmm).getD (j - 1) Hmmer.Baseline.dB).del.1 *
        Hmmer.getT hmm.transitions.delete_to_delete (j - 1) →
    ((0 < j → pi_ ≤ pm → pd ≤ pm →
        ((Hmmer.Baseline.bRowAt hmm seq (i + 1)).getD j Hmmer.Baseline.dB).m.2 =
          Hmmer.State.Match) ∧
     (0 < j → pm < pi_ → pd ≤ pi_ →
        ((Hmmer.Baseline.bRowAt hmm seq (i + 1)).getD j Hmmer.Baseline.dB).m.2 =
          Hmmer.State.Insert) ∧
     (0 < j → pm < pd → pi_ < pd →
        ((Hmmer.Baseline.bRowAt hmm seq (i + 1)).getD j Hmmer.Baseline.dB).m.2 =
          Hmmer.State.Delete) ∧
     (qi ≤ qm →
        ((Hmmer.Baseline.bRowAt hmm seq (i + 1)).getD j Hmmer.Baseline.dB).ins.2 =
          Hmmer.State.Match) ∧
     (qm < qi →
        ((Hmmer.Baseline.bRowAt hmm seq (i + 1)).getD j Hmmer.Baseline.dB).ins.2 =
          Hmmer.State.Insert) ∧
     (0 < j → rd ≤ rm →
        ((Hmmer.Baseline.bRowAt hmm seq (i + 1)).getD j Hmmer.Baseline.dB).del.2 =
          Hmmer.State.Match) ∧
     (0 < j → rm < rd →
        ((Hmmer.Baseline.bRowAt hmm seq (i + 1)).getD j Hmmer.Baseline.dB).del.2 =
          Hmmer.State.Delete) ∧
     (0 < j → sd ≤ sm →
        ((Hmmer.Baseline.bRow0 hmm).getD j Hmmer.Baseline.dB).del.2 =
          Hmmer.State.Match) ∧
     (0 < j → sm < sd →
        ((Hmmer.Baseline.bRow0 hmm).getD j Hmmer.Baseline.dB).del.2 =
          Hmmer.State.Delete)) := by
  intro pm pi_ pd qm qi rm rd sm sd hpm hpi hpd hqm hqi hrm hrd hsm hsd
  subst hpm hpi hpd hqm hqi hrm hrd hsm hsd
  have hrow : Hmmer.Baseline.bRowAt hmm seq (i + 1) =
      Hmmer.Baseline.bStep hmm (Hmmer.aa_to_index (seq.getD i 0))
        (Hmmer.Baseline.bRowAt hmm seq i) :=
    Hmmer.Baseline.bRowAt_succ hmm seq i hi
  rcases Nat.eq_zero_or_pos j with rfl | hj0
  · have hcell : (Hmmer.Baseline.bRowAt hmm seq (i + 1)).getD 0 Hmmer.Baseline.dB =
        Hmmer.Baseline.bCell hmm (Hmmer.aa_to_index (seq.getD i 0))
          (Hmmer.Baseline.bRowAt hmm seq i) 0 0 0 := by
      rw [hrow]
      exact Hmmer.Baseline.bStep_getD_zero _ _ _ (by omega)
    refine ⟨fun h => absurd h (by omega), fun h => absurd h (by omega),
      fun h => absurd h (by omega), ?_, ?_,
      fun h => absurd h (by omega), fun h => absurd h (by omega),
      fun h => absurd h (by omega), fun h => absurd h (by omega)⟩
    · intro h
      rw [hcell, Hmmer.bCell_ins_any]
      exact Hmmer.selMI_snd_m h
    · intro h
      rw [hcell, Hmmer.bCell_ins_any]
      exact Hmmer.selMI_snd_i h
  · obtain ⟨k, rfl⟩ : ∃ k, j = k + 1 := ⟨j - 1, by omega⟩
    simp only [Nat.add_sub_cancel]
    have hstep := Hmmer.Baseline.bStep_getD_succ hmm
      (Hmmer.aa_to_index (seq.getD i 0)) (Hmmer.Baseline.bRowAt hmm seq i) k hj
    rw [← hrow] at hstep
    have hcell0 := Hmmer.Baseline.bRow0_getD_succ hmm k hj
    refine ⟨?_, ?_, ?_, ?_, ?_, ?_, ?_, ?_, ?_⟩
    · intro _ h1 h2
      rw [hstep, Hmmer.bCell_m_succ]
      exact Hmmer.selMatch3_snd_m h1 h2
    · intro _ h1 h2
      rw [hstep, Hmmer.bCell_m_succ]
      exact Hmmer.selMatch3_snd_i h1 h2
    · intro _ h1 h2
      rw [hstep, Hmmer.bCell_m_succ]
      exact Hmmer.selMatch3_snd_d h1 h2
    · intro h
      rw [hstep, Hmmer.bCell_ins_any]
      exact Hmmer.selMI_snd_m h
    · intro h
      rw [hstep, Hmmer.bCell_ins_any]
      exact Hmmer.selMI_snd_i h
    · intro _ h
      rw [hstep, Hmmer.bCell_del_succ]
      exact Hmmer.selMD_snd_m h
    · intro _ h
      rw [hstep, Hmmer.bCell_del_succ]
      exact Hmmer.selMD_snd_d h
    · intro _ h
      rw [hcell0, Hmmer.b0Cell_del_succ]
      exact Hmmer.selMD_snd_m h
    · intro _ h
      rw [hcell0, Hmmer.b0Cell_del_succ]
      exact Hmmer.selMD_snd_d h

/-- C9 witness: on the length-2 fixed-constant model and sequence `"A"`,
the two insert-cell candidates at row 1, column 1 tie (both are `-∞`),
and the recorded predecessor is `Match`. -/
theorem tie_break_precedence_witness :
    ((Hmmer.Baseline.bRowAt (Hmmer.HMM.new 2) [65] 1).getD 1 Hmmer.Baseline.dB).ins.2 =
      Hmmer.State.Match := by
  refine (tie_break_precedence (Hmmer.HMM.new 2) [65] 0 1 (by decide) (by decide)
    _ _ _ _ _ _ _ _ _ rfl rfl rfl rfl rfl rfl rfl rfl rfl).2.2.2.1 ?_
  with_unfolding_all decide
